import Mathlib

/-!
# Verification of the cibyl query-orchestration engine

Shallow embedding of the core of the `cibyl` repository:
* `Orchestrator.run_query` (src/cibyl/orchestrator.py),
* source resolution (`Source.get_source_method`, modelled from the spec),
* the Elasticsearch source's `get_builds` / `get_last_build` / `get_tests`
  pipeline and its filter helpers (src/cibyl/sources/elasticsearch/api.py),
* the model-merge semantics (modelled from the spec, §4.1).

Python dictionaries are embedded as insertion-ordered association lists
(`List (String × α)`), Python's stable `sorted` as a stable insertion sort,
Python `int(s)` as an `Option Int` parser, and exceptions as `Except`.
-/

namespace Cibyl

/-! ## Association lists: insertion-ordered Python dicts -/

/-- Lookup of a key in an insertion-ordered dict (first binding wins). -/
def alookup {α : Type} (k : String) : List (String × α) → Option α
  | [] => none
  | (k', v) :: rest => if k' = k then some v else alookup k rest

/-- Update the first binding of `k` by `f`, leaving other bindings alone. -/
def aupdate {α : Type} (k : String) (f : α → α) : List (String × α) → List (String × α)
  | [] => []
  | (k', v) :: rest =>
      if k' = k then (k', f v) :: rest else (k', v) :: aupdate k f rest

/-- Python dict `d[k] = v` given that `k` is absent: append at the end
(insertion order). -/
def aappend {α : Type} (d : List (String × α)) (k : String) (v : α) :
    List (String × α) :=
  d ++ [(k, v)]

/-! ## Python `sorted` with a key: stable insertion sort

`sorted(xs, key=f)` (ascending, stable) and
`sorted(xs, key=f, reverse=True)` (descending, stable).  The insert
condition `≤` (resp. `≥`) puts an earlier-listed element in front of
later-listed elements with an equal key, which is exactly Python's
stability guarantee. -/

/-- Insert for stable ascending sort by an integer key. -/
def insertAscBy {α : Type} (key : α → Int) (x : α) : List α → List α
  | [] => [x]
  | y :: ys => if key x ≤ key y then x :: y :: ys else y :: insertAscBy key x ys

/-- Stable ascending sort by an integer key (`sorted(xs, key=f)`). -/
def sortAscBy {α : Type} (key : α → Int) (l : List α) : List α :=
  l.foldr (insertAscBy key) []

/-- Insert for stable descending sort by an integer key. -/
def insertDescBy {α : Type} (key : α → Int) (x : α) : List α → List α
  | [] => [x]
  | y :: ys => if key x ≥ key y then x :: y :: ys else y :: insertDescBy key x ys

/-- Stable descending sort by an integer key
(`sorted(xs, key=f, reverse=True)`). -/
def sortDescBy {α : Type} (key : α → Int) (l : List α) : List α :=
  l.foldr (insertDescBy key) []

theorem mem_insertAscBy {α : Type} (key : α → Int) (x : α) (l : List α) (z : α) :
    z ∈ insertAscBy key x l ↔ z = x ∨ z ∈ l := by
  induction l with
  | nil => simp [insertAscBy]
  | cons y ys ih =>
      by_cases h : key x ≤ key y
      · simp [insertAscBy, h]
      · rw [insertAscBy, if_neg h]
        simp only [List.mem_cons, ih]
        tauto

theorem mem_sortAscBy {α : Type} (key : α → Int) (l : List α) (z : α) :
    z ∈ sortAscBy key l ↔ z ∈ l := by
  induction l with
  | nil => simp [sortAscBy]
  | cons y ys ih =>
      simp only [sortAscBy, List.foldr_cons] at *
      rw [mem_insertAscBy, ih, List.mem_cons]

theorem mem_insertDescBy {α : Type} (key : α → Int) (x : α) (l : List α) (z : α) :
    z ∈ insertDescBy key x l ↔ z = x ∨ z ∈ l := by
  induction l with
  | nil => simp [insertDescBy]
  | cons y ys ih =>
      by_cases h : key x ≥ key y
      · simp [insertDescBy, h]
      · rw [insertDescBy, if_neg h]
        simp only [List.mem_cons, ih]
        tauto

theorem mem_sortDescBy {α : Type} (key : α → Int) (l : List α) (z : α) :
    z ∈ sortDescBy key l ↔ z ∈ l := by
  induction l with
  | nil => simp [sortDescBy]
  | cons y ys ih =>
      simp only [sortDescBy, List.foldr_cons] at *
      rw [mem_insertDescBy, ih, List.mem_cons]

theorem pairwise_insertAscBy {α : Type} (key : α → Int) (x : α) (l : List α)
    (h : l.Pairwise (fun a b => key a ≤ key b)) :
    (insertAscBy key x l).Pairwise (fun a b => key a ≤ key b) := by
  induction l with
  | nil => simp [insertAscBy]
  | cons y ys ih =>
      rcases List.pairwise_cons.mp h with ⟨hy, hys⟩
      by_cases hc : key x ≤ key y
      · rw [insertAscBy, if_pos hc]
        refine List.pairwise_cons.mpr ⟨?_, h⟩
        intro z hz
        rcases List.mem_cons.mp hz with rfl | hz
        · exact hc
        · exact le_trans hc (hy z hz)
      · rw [insertAscBy, if_neg hc]
        refine List.pairwise_cons.mpr ⟨?_, ih hys⟩
        intro z hz
        rcases (mem_insertAscBy key x ys z).mp hz with rfl | hz
        · exact le_of_not_le hc
        · exact hy z hz

theorem pairwise_sortAscBy {α : Type} (key : α → Int) (l : List α) :
    (sortAscBy key l).Pairwise (fun a b => key a ≤ key b) := by
  induction l with
  | nil => simp [sortAscBy]
  | cons y ys ih =>
      simpa [sortAscBy] using pairwise_insertAscBy key y _ ih

theorem pairwise_insertDescBy {α : Type} (key : α → Int) (x : α) (l : List α)
    (h : l.Pairwise (fun a b => key b ≤ key a)) :
    (insertDescBy key x l).Pairwise (fun a b => key b ≤ key a) := by
  induction l with
  | nil => simp [insertDescBy]
  | cons y ys ih =>
      rcases List.pairwise_cons.mp h with ⟨hy, hys⟩
      by_cases hc : key x ≥ key y
      · rw [insertDescBy, if_pos hc]
        refine List.pairwise_cons.mpr ⟨?_, h⟩
        intro z hz
        rcases List.mem_cons.mp hz with rfl | hz
        · exact hc
        · exact le_trans (hy z hz) hc
      · rw [insertDescBy, if_neg hc]
        refine List.pairwise_cons.mpr ⟨?_, ih hys⟩
        intro z hz
        rcases (mem_insertDescBy key x ys z).mp hz with rfl | hz
        · exact le_of_not_le hc
        · exact hy z hz

theorem pairwise_sortDescBy {α : Type} (key : α → Int) (l : List α) :
    (sortDescBy key l).Pairwise (fun a b => key b ≤ key a) := by
  induction l with
  | nil => simp [sortDescBy]
  | cons y ys ih =>
      simpa [sortDescBy] using pairwise_insertDescBy key y _ ih

/-! ## `Orchestrator.run_query` (src/cibyl/orchestrator.py, lines 93-115)

A parsed CLI argument (`self.parser.ci_args` value) carries a `level` and an
optional handler-method name `func`; arguments whose `func` is `None`
(e.g. `--sources`) are filter-only.  `run_query` iterates the arguments
sorted by level descending and fires a fetch when
`arg.level >= start_level and arg.level >= last_level`; for a fired
argument with no `func` the loop `continue`s before the trailing
`last_level = arg.level` assignment, while in every other case that
assignment executes. -/

structure CriterionArg where
  level : Int
  func : Option String
  deriving DecidableEq, Repr

/-- The loop state of `run_query`: the current `last_level` and the list of
arguments whose handler has been invoked so far, in invocation order. -/
structure QueryState where
  lastLevel : Int
  fetched : List CriterionArg
  deriving DecidableEq, Repr

/-- One iteration of the `for arg in sorted(...)` loop of `run_query`. -/
def runQueryStep (startLevel : Int) (st : QueryState) (arg : CriterionArg) :
    QueryState :=
  if arg.level ≥ startLevel ∧ arg.level ≥ st.lastLevel then
    match arg.func with
    | none => st
    | some _ => { lastLevel := arg.level, fetched := st.fetched ++ [arg] }
  else
    { st with lastLevel := arg.level }

/-- `Orchestrator.run_query(start_level)`: sort the arguments by level
descending (stably) and run the loop from `last_level = -1`. -/
def run_query (startLevel : Int) (args : List CriterionArg) : QueryState :=
  (sortDescBy (fun a => a.level) args).foldl (runQueryStep startLevel)
    { lastLevel := -1, fetched := [] }

/-- The loop invariant of `run_query`, pushed through the remaining
(sorted) argument list: every fetched argument passed the `start_level`
bound, has a handler, came from the processed list, and the fetched
sequence is non-increasing in level. -/
theorem runQuery_foldl_inv (startLevel : Int) (rest : List CriterionArg)
    (st : QueryState)
    (hsorted : rest.Pairwise (fun a b => b.level ≤ a.level))
    (h1 : ∀ a ∈ st.fetched, startLevel ≤ a.level)
    (h2 : st.fetched.Pairwise (fun a b => b.level ≤ a.level))
    (h3 : ∀ a ∈ st.fetched, ∀ r ∈ rest, r.level ≤ a.level)
    (h4 : ∀ a ∈ st.fetched, a.func ≠ none)
    (h5 : ∀ a ∈ st.fetched, a ∈ st.fetched ∨ a ∈ rest) :
    (∀ a ∈ (rest.foldl (runQueryStep startLevel) st).fetched,
        startLevel ≤ a.level) ∧
    (rest.foldl (runQueryStep startLevel) st).fetched.Pairwise
        (fun a b => b.level ≤ a.level) ∧
    (∀ a ∈ (rest.foldl (runQueryStep startLevel) st).fetched, a.func ≠ none) ∧
    (∀ a ∈ (rest.foldl (runQueryStep startLevel) st).fetched,
        a ∈ st.fetched ∨ a ∈ rest) := by
  induction rest generalizing st with
  | nil =>
      exact ⟨h1, h2, h4, fun a ha => Or.inl ha⟩
  | cons r rs ih =>
      rcases List.pairwise_cons.mp hsorted with ⟨hr, hrs⟩
      simp only [List.foldl_cons]
      by_cases hg : r.level ≥ startLevel ∧ r.level ≥ st.lastLevel
      · cases hf : r.func with
        | none =>
            have hstep : runQueryStep startLevel st r = st := by
              simp [runQueryStep, hg, hf]
            rw [hstep]
            have := ih st hrs h1 h2
              (fun a ha x hx => h3 a ha x (List.mem_cons_of_mem r hx)) h4
              (fun a ha => Or.inl ha)
            refine ⟨this.1, this.2.1, this.2.2.1, fun a ha => ?_⟩
            rcases this.2.2.2 a ha with h | h
            · exact Or.inl h
            · exact Or.inr (List.mem_cons_of_mem r h)
        | some f =>
            have hstep : runQueryStep startLevel st r =
                { lastLevel := r.level, fetched := st.fetched ++ [r] } := by
              simp [runQueryStep, hg, hf]
            rw [hstep]
            have h1' : ∀ a ∈ st.fetched ++ [r], startLevel ≤ a.level := by
              intro a ha
              rcases List.mem_append.mp ha with h | h
              · exact h1 a h
              · rcases List.mem_singleton.mp h with rfl
                exact hg.1
            have h2' : (st.fetched ++ [r]).Pairwise
                (fun a b => b.level ≤ a.level) := by
              refine List.pairwise_append.mpr ⟨h2, List.pairwise_singleton _ _,
                fun a ha b hb => ?_⟩
              rcases List.mem_singleton.mp hb with rfl
              exact h3 a ha b (List.mem_cons_self _ _)
            have h3' : ∀ a ∈ st.fetched ++ [r], ∀ x ∈ rs, x.level ≤ a.level := by
              intro a ha x hx
              rcases List.mem_append.mp ha with h | h
              · exact h3 a h x (List.mem_cons_of_mem r hx)
              · rcases List.mem_singleton.mp h with rfl
                exact hr x hx
            have h4' : ∀ a ∈ st.fetched ++ [r], a.func ≠ none := by
              intro a ha
              rcases List.mem_append.mp ha with h | h
              · exact h4 a h
              · rcases List.mem_singleton.mp h with rfl
                simp [hf]
            have := ih { lastLevel := r.level, fetched := st.fetched ++ [r] }
              hrs h1' h2' h3' h4' (fun a ha => Or.inl ha)
            refine ⟨this.1, this.2.1, this.2.2.1, fun a ha => ?_⟩
            rcases this.2.2.2 a ha with h | h
            · rcases List.mem_append.mp h with h | h
              · exact Or.inl h
              · rcases List.mem_singleton.mp h with rfl
                exact Or.inr (List.mem_cons_self _ _)
            · exact Or.inr (List.mem_cons_of_mem r h)
      · have hstep : runQueryStep startLevel st r =
            { st with lastLevel := r.level } := by
          simp only [runQueryStep, if_neg hg]
        rw [hstep]
        have := ih { st with lastLevel := r.level } hrs h1 h2
          (fun a ha x hx => h3 a ha x (List.mem_cons_of_mem r hx)) h4
          (fun a ha => Or.inl ha)
        refine ⟨this.1, this.2.1, this.2.2.1, fun a ha => ?_⟩
        rcases this.2.2.2 a ha with h | h
        · exact Or.inl h
        · exact Or.inr (List.mem_cons_of_mem r h)

/-- **C1.** In `run_query`, criteria are processed in descending level
order, and a criterion triggers a fetch only if its level is at least
`start_level` (default 1) and at least `last_level` (initialised to `-1`,
below any real level); consequently handlers execute in non-increasing
level order, every fetched criterion comes from the argument set and has a
handler, and a criterion with level below `start_level` never triggers a
fetch — for every set of criteria and every `start_level`. -/
theorem run_query_level_ordering (startLevel : Int) (args : List CriterionArg) :
    (∀ a ∈ (run_query startLevel args).fetched,
        startLevel ≤ a.level ∧ a.func ≠ none ∧ a ∈ args) ∧
    (run_query startLevel args).fetched.Pairwise
        (fun a b => b.level ≤ a.level) ∧
    (∀ (st : QueryState) (arg : CriterionArg),
        (runQueryStep startLevel st arg).fetched ≠ st.fetched →
        startLevel ≤ arg.level ∧ st.lastLevel ≤ arg.level) := by
  have hsorted : (sortDescBy (fun a => a.level) args).Pairwise
      (fun a b => b.level ≤ a.level) :=
    pairwise_sortDescBy (fun a => a.level) args
  have hmain := runQuery_foldl_inv startLevel
    (sortDescBy (fun a => a.level) args) { lastLevel := -1, fetched := [] }
    hsorted (by simp) (by simp) (by simp) (by simp) (by simp)
  refine ⟨fun a ha => ⟨hmain.1 a ha, hmain.2.2.1 a ha, ?_⟩, hmain.2.1,
    fun st arg hne => ?_⟩
  · rcases hmain.2.2.2 a ha with h | h
    · simp at h
    · exact (mem_sortDescBy (fun a => a.level) args a).mp h
  · by_cases hg : arg.level ≥ startLevel ∧ arg.level ≥ st.lastLevel
    · exact hg
    · exact absurd (by simp only [runQueryStep, if_neg hg]) hne

/-- Witness for C1: a concrete run with `start_level = 1` over criteria at
levels 2 (with handler), 1 (filter-only) and 0 (with handler); the level-2
criterion is fetched and the theorem yields its bounds. -/
theorem run_query_level_ordering_witness :
    (⟨2, some "get_builds"⟩ : CriterionArg) ∈
      (run_query 1 [⟨0, some "get_jobs"⟩, ⟨2, some "get_builds"⟩,
        ⟨1, none⟩]).fetched ∧
    (1 : Int) ≤ 2 ∧ (some "get_builds" : Option String) ≠ none := by
  have h := run_query_level_ordering 1
    [⟨0, some "get_jobs"⟩, ⟨2, some "get_builds"⟩, ⟨1, none⟩]
  have hmem : (⟨2, some "get_builds"⟩ : CriterionArg) ∈
      (run_query 1 [⟨0, some "get_jobs"⟩, ⟨2, some "get_builds"⟩,
        ⟨1, none⟩]).fetched := by decide
  exact ⟨hmem, (h.1 _ hmem).1, (h.1 _ hmem).2.1⟩

/-- **C2, counterexample.** In the actual `run_query` loop with
`start_level = 1`, after a level-2 criterion with a handler has run
(`last_level = 2`), processing the filter-only criterion at level 1 *does*
update `last_level` (to 1): the trailing `last_level = arg.level`
assignment is only skipped by the `continue` when the filter-only
criterion passes the level guard, and here the guard fails
(`1 >= 2` is false). -/
theorem run_query_filter_only_changes_lastLevel :
    (⟨1, none⟩ : CriterionArg).func = none ∧
    (run_query 1 [⟨2, some "get_builds"⟩]).lastLevel = 2 ∧
    run_query 1 [⟨2, some "get_builds"⟩, ⟨1, none⟩] =
      runQueryStep 1 (run_query 1 [⟨2, some "get_builds"⟩]) ⟨1, none⟩ ∧
    (runQueryStep 1 (run_query 1 [⟨2, some "get_builds"⟩])
      ⟨1, none⟩).lastLevel = 1 := by
  decide

/-- **C2, amended.** A filter-only criterion (no handler function) never
updates `last_level` *when it passes the level guard*
(`arg.level >= start_level and arg.level >= last_level`): the loop
`continue`s before the assignment and the whole state is unchanged.  A
filter-only criterion that fails the guard sets `last_level` to its own
level, exactly like any other non-fetching criterion. -/
theorem runQueryStep_filter_only (startLevel : Int) (st : QueryState)
    (arg : CriterionArg) (hf : arg.func = none) :
    (startLevel ≤ arg.level ∧ st.lastLevel ≤ arg.level →
        runQueryStep startLevel st arg = st) ∧
    (¬ (startLevel ≤ arg.level ∧ st.lastLevel ≤ arg.level) →
        runQueryStep startLevel st arg = { st with lastLevel := arg.level }) := by
  constructor
  · intro hg
    simp [runQueryStep, hf, ge_iff_le, hg.1, hg.2]
  · intro hg
    have : ¬ (arg.level ≥ startLevel ∧ arg.level ≥ st.lastLevel) := hg
    simp only [runQueryStep, if_neg this]

/-- Witness for the amended C2: a passing filter-only criterion leaves the
state alone; a failing one rewrites `last_level`. -/
theorem runQueryStep_filter_only_witness :
    runQueryStep 1 { lastLevel := -1, fetched := [] } ⟨1, none⟩ =
      { lastLevel := -1, fetched := [] } ∧
    runQueryStep 1 { lastLevel := 2, fetched := [] } ⟨1, none⟩ =
      { lastLevel := 1, fetched := [] } := by
  constructor
  · exact (runQueryStep_filter_only 1 { lastLevel := -1, fetched := [] }
      ⟨1, none⟩ rfl).1 (by decide)
  · exact (runQueryStep_filter_only 1 { lastLevel := 2, fetched := [] }
      ⟨1, none⟩ rfl).2 (by decide)

/-! ## Python `int(s)` on build identifiers -/

/-- Value of a nonempty all-digit character list, else `none`. -/
def digitsToNat : List Char → Option Nat
  | [] => none
  | cs =>
      if cs.all Char.isDigit then
        some (cs.foldl (fun n c => 10 * n + (c.toNat - 48)) 0)
      else none

/-- Python `int(s)`: an optional sign followed by digits; anything else
raises `ValueError`, embedded as `none`. -/
def pyInt (s : String) : Option Int :=
  match s.toList with
  | '-' :: rest => (digitsToNat rest).map (fun n => -(n : Int))
  | '+' :: rest => (digitsToNat rest).map (fun n => (n : Int))
  | cs => (digitsToNat cs).map (fun n => (n : Int))

/-! ## Elasticsearch hit records and CI model entities

An Elasticsearch `_source` value is a string or an int; `get_builds`
stringifies `build_num` with `str()` before filtering.  The
`test_results_*` fields arrive already parsed by `xsdata` into test-suite
records whose testcases carry name, classname, skipped/failure markers and
a time (always present in the tempest XML; embedded as an integer). -/

inductive ElkVal where
  | s (v : String)
  | i (v : Int)
  deriving DecidableEq, Repr

/-- Python `str()` on an Elasticsearch scalar. -/
def pyStr : ElkVal → String
  | .s v => v
  | .i v => toString v

structure TestCaseXml where
  name : String
  classname : Option String
  skipped : Bool
  failure : Bool
  time : Int
  deriving DecidableEq, Repr

/-- One flattened `hit['_source']` record. -/
structure Hit where
  job_name : String
  job_url : String
  build_num : ElkVal
  build_result : String
  build_duration : Option Int
  test_suites : List (List TestCaseXml)
  deriving DecidableEq, Repr

/-- The CI model entities (`cibyl.models.ci.base`, not under src/), with
`populate` flags embedded as `Option` fields; the dict key (job name,
build id, test name) lives in the surrounding association list. -/
structure TestR where
  result : Option String
  duration : Option Int
  class_name : Option String
  deriving DecidableEq, Repr

structure BuildR where
  status : Option String
  duration : Option Int
  tests : List (String × TestR)
  deriving DecidableEq, Repr

structure JobR where
  url : Option String
  builds : List (String × BuildR)
  deriving DecidableEq, Repr

/-! ## Merge semantics (modelled from the spec)

Modelled from the spec: the model classes' `add_build` / `add_test` /
`add_job` merge-or-insert operations (cibyl/models, not under src/) —
"re-adding an entity with the same key updates only the fields present in
the new value, preserving previously set fields absent from the new
value", children merged by key union (§4.1). -/

/-- Field-wise merge: a field present in the new value wins, an absent
field keeps the earlier value. -/
def mergeOpt {α : Type} (old nw : Option α) : Option α :=
  match nw with
  | some v => some v
  | none => old

def mergeTest (old nw : TestR) : TestR :=
  { result := mergeOpt old.result nw.result
    duration := mergeOpt old.duration nw.duration
    class_name := mergeOpt old.class_name nw.class_name }

/-- Merge-or-insert of a keyed value into an insertion-ordered dict. -/
def addKV {α : Type} (m : α → α → α) (l : List (String × α)) (k : String)
    (v : α) : List (String × α) :=
  match alookup k l with
  | some _ => aupdate k (fun o => m o v) l
  | none => aappend l k v

def addTestToList (ts : List (String × TestR)) (name : String) (t : TestR) :
    List (String × TestR) :=
  addKV mergeTest ts name t

def mergeBuild (old nw : BuildR) : BuildR :=
  { status := mergeOpt old.status nw.status
    duration := mergeOpt old.duration nw.duration
    tests := nw.tests.foldl (fun acc p => addTestToList acc p.1 p.2) old.tests }

def addBuildToList (bs : List (String × BuildR)) (bid : String) (b : BuildR) :
    List (String × BuildR) :=
  addKV mergeBuild bs bid b

/-- `Job.add_build` (merge-or-insert by build id). -/
def add_build (j : JobR) (bid : String) (b : BuildR) : JobR :=
  { j with builds := addBuildToList j.builds bid b }

def mergeJob (old nw : JobR) : JobR :=
  { url := mergeOpt old.url nw.url
    builds := nw.builds.foldl (fun acc p => addBuildToList acc p.1 p.2) old.builds }

/-- `System.add_job` (merge-or-insert by job name), the operation
`Orchestrator.populate` dispatches to when merging a handler's returned
jobs into a system. -/
def add_job (sys : List (String × JobR)) (name : String) (j : JobR) :
    List (String × JobR) :=
  addKV mergeJob sys name j

/-! ## Filter helpers ---

`apply_filters`, `satisfy_exact_match`, `satisfy_case_insensitive_match`
and `satisfy_regex_match` live in cibyl/utils/filtering.py, which is not
under src/; they are modelled from the spec here.  `get_build_filters`,
`filter_jobs` and `filter_builds` are from
src/cibyl/sources/elasticsearch/api.py. -/

/-- Modelled from the spec: `apply_filters` (cibyl/utils/filtering.py, not
under src/) — each record "passes through a dynamically assembled chain of
independent predicate stages"; the chain is conjunctive and an empty chain
admits all records. -/
def apply_filters {α : Type} (records : List α) (checks : List (α → Bool)) :
    List α :=
  match checks with
  | [] => records
  | c :: cs => apply_filters (records.filter c) cs

/-- Modelled from the spec: `satisfy_exact_match` (cibyl/utils/filtering.py,
not under src/) — the record's field equals one of the user-supplied
values. -/
def satisfy_exact_match (vals : List String) (field : Hit → String)
    (h : Hit) : Bool :=
  vals.contains (field h)

/-- Python `str.lower()` on an ASCII character. -/
def pyLowerChar (c : Char) : Char :=
  if 'A' ≤ c ∧ c ≤ 'Z' then Char.ofNat (c.toNat + 32) else c

/-- Python `str.lower()` (statuses are ASCII). -/
def pyLower (s : String) : String :=
  String.mk (s.toList.map pyLowerChar)

/-- Python `str.upper()` on an ASCII character. -/
def pyUpperChar (c : Char) : Char :=
  if 'a' ≤ c ∧ c ≤ 'z' then Char.ofNat (c.toNat - 32) else c

/-- Python `str.upper()` (statuses are ASCII). -/
def pyUpper (s : String) : String :=
  String.mk (s.toList.map pyUpperChar)

/-- Modelled from the spec: `satisfy_case_insensitive_match`
(cibyl/utils/filtering.py, not under src/) — the record's field equals one
of the user-supplied values under case-insensitive comparison. -/
def satisfy_case_insensitive_match (vals : List String) (field : Hit → String)
    (h : Hit) : Bool :=
  (vals.map pyLower).contains (pyLower (field h))

/-- Does `p` start `s`? -/
def leadMatch : List Char → List Char → Bool
  | [], _ => true
  | _ :: _, [] => false
  | a :: as, b :: bs => a = b && leadMatch as bs

/-- Does `p` occur inside `s`? -/
def occursIn (p : List Char) : List Char → Bool
  | [] => p.isEmpty
  | c :: rest => leadMatch p (c :: rest) || occursIn p rest

/-- Modelled from the spec: `satisfy_regex_match` over
`re.compile("|".join(pats))` (cibyl/utils/filtering.py, not under src/) —
for literal alternative patterns, `re.search` succeeds exactly when some
alternative occurs inside the field. -/
def satisfy_regex_match (pats : List String) (s : String) : Bool :=
  pats.any (fun p => occursIn p.toList s.toList)

/-! ## The keyword-argument set passed to a source handler

`kwargs` maps argument names to `Argument` objects; `none` embeds an
absent key, `some vs` a present `Argument` whose `.value` is `vs` (an
empty list being falsy).  `last_build` and `test_result` /
`test_duration` / `tests` are carried the same way; for `last_build` only
presence is tested by the code. -/

inductive RangeOp where
  | gt
  | ge
  | lt
  | le
  | eq
  deriving DecidableEq, Repr

/-- `RANGE_OPERATORS` (cibyl/cli/ranged_argument.py):
`{ '>': gt, '>=': ge, '<': lt, '<=': le, '==': eq }`. -/
def rangeOpApply : RangeOp → Int → Int → Bool
  | .gt, a, b => a > b
  | .ge, a, b => a ≥ b
  | .lt, a, b => a < b
  | .le, a, b => a ≤ b
  | .eq, a, b => a = b

structure Kwargs where
  jobs : Option (List String)
  jobs_scope : Option String
  specName : Option (List String)
  builds : Option (List String)
  build_status : Option (List String)
  last_build : Bool
  tests : Option (List String)
  test_result : Option (List String)
  test_duration : Option (List (RangeOp × Int))
  deriving DecidableEq, Repr

/-- `get_build_filters(**kwargs)`
(src/cibyl/sources/elasticsearch/api.py, lines 49-64). -/
def get_build_filters (kw : Kwargs) : List (Hit → Bool) :=
  (match kw.builds with
    | some vals =>
        if vals.isEmpty then []
        else [satisfy_exact_match vals (fun h => pyStr h.build_num)]
    | none => []) ++
  (match kw.build_status with
    | some vals =>
        if vals.isEmpty then []
        else [satisfy_case_insensitive_match vals (fun h => h.build_result)]
    | none => [])

/-- The predicate chain assembled by `filter_jobs`
(src/cibyl/sources/elasticsearch/api.py, lines 67-89). -/
def job_checks (kw : Kwargs) : List (Hit → Bool) :=
  (match kw.jobs with
    | some vals =>
        if vals.isEmpty then []
        else [fun h => satisfy_regex_match vals h.job_name]
    | none => []) ++
  (match kw.jobs_scope with
    | some pat =>
        if pat.isEmpty then []
        else [fun h => satisfy_regex_match [pat] h.job_name]
    | none => []) ++
  (match kw.specName with
    | some vals =>
        if vals.isEmpty then []
        else [satisfy_exact_match vals (fun h => h.job_name)]
    | none => [])

/-- `filter_jobs(jobs_found, **kwargs)`. -/
def filter_jobs (jobs_found : List Hit) (kw : Kwargs) : List Hit :=
  apply_filters jobs_found (job_checks kw)

/-- The `build["build_num"] = str(build["build_num"])` normalisation at the
top of `filter_builds`. -/
def stringifyBuildNum (h : Hit) : Hit :=
  { h with build_num := .s (pyStr h.build_num) }

/-- `filter_builds(builds_found, checks_to_apply)`
(src/cibyl/sources/elasticsearch/api.py, lines 92-107). -/
def filter_builds (builds_found : List Hit) (checks : List (Hit → Bool)) :
    List Hit :=
  apply_filters (builds_found.map stringifyBuildNum) checks

/-! ## `ElasticSearch.get_builds` / `get_last_build` / `get_tests`
(src/cibyl/sources/elasticsearch/api.py) -/

/-- The exceptions these methods can raise. -/
inductive CibylErr where
  | missingArgument (msg : String)
  | valueError (msg : String)
  deriving DecidableEq, Repr

/-- The `Build(build_id, build_result, build_duration)` object built from
one hit (tests start empty). -/
def buildOfHit (h : Hit) : BuildR :=
  { status := some h.build_result
    duration := h.build_duration
    tests := [] }

/-- One iteration of the `for build in hits` grouping loop of
`get_builds`: create the job on first sight, then `add_build`. -/
def addHitBuild (acc : List (String × JobR)) (h : Hit) : List (String × JobR) :=
  let acc1 :=
    match alookup h.job_name acc with
    | some _ => acc
    | none => aappend acc h.job_name { url := some h.job_url, builds := [] }
  aupdate h.job_name (fun j => add_build j (pyStr h.build_num) (buildOfHit h)) acc1

/-- Modelled from the spec: `has_builds_job` (cibyl/utils/models.py, not
under src/) — the job holds at least one build. -/
def has_builds_job (j : JobR) : Bool :=
  !j.builds.isEmpty

/-- Modelled from the spec: `has_tests_job` (cibyl/utils/models.py, not
under src/) — some build of the job holds at least one test. -/
def has_tests_job (j : JobR) : Bool :=
  j.builds.any (fun p => !p.2.tests.isEmpty)

/-- `sorted(builds.keys(), key=int)`: Python computes `int` of every key
(raising `ValueError` at the first non-numeric one) before sorting. -/
def intKeys : List (String × BuildR) → Option (List (String × Int))
  | [] => some []
  | (k, _) :: rest =>
      match pyInt k, intKeys rest with
      | some n, some ks => some ((k, n) :: ks)
      | _, _ => none

/-- The body of the `for job_name, build_info in builds_jobs.items()` loop
of `get_last_build` for one job: skip a job without builds, otherwise take
`sorted(builds.keys(), key=int)[-1]` and emit a fresh job holding only
that build. -/
def lastBuildOfJob (j : JobR) : Except CibylErr (Option JobR) :=
  if j.builds.isEmpty then .ok none
  else
    match intKeys j.builds with
    | none => .error (.valueError "invalid literal for int() with base 10")
    | some keyed =>
        match (sortAscBy (fun p => p.2) keyed).getLast? with
        | none => .ok none
        | some (lastKey, _) =>
            match alookup lastKey j.builds with
            | none => .ok none
            | some b => .ok (some { url := j.url, builds := [(lastKey, b)] })

/-- `ElasticSearch.get_last_build(builds_jobs)`
(src/cibyl/sources/elasticsearch/api.py, lines 280-301). -/
def get_last_build : List (String × JobR) → Except CibylErr (List (String × JobR))
  | [] => .ok []
  | (name, j) :: rest =>
      match lastBuildOfJob j with
      | .error e => .error e
      | .ok none => get_last_build rest
      | .ok (some j') => (get_last_build rest).map (fun r => (name, j') :: r)

/-- `ElasticSearch.get_builds(**kwargs)`
(src/cibyl/sources/elasticsearch/api.py, lines 215-278): filter the hits,
group them into jobs, drop jobs left without builds when a build filter
was active, and hand over to `get_last_build` when `last_build` was
requested. -/
def get_builds (hits : List Hit) (kw : Kwargs) :
    Except CibylErr (List (String × JobR)) :=
  let build_filters := get_build_filters kw
  let filtering_builds := !build_filters.isEmpty
  let hits2 := filter_builds (filter_jobs hits kw) build_filters
  let jobs_found := hits2.foldl addHitBuild []
  let final_jobs :=
    if filtering_builds then jobs_found.filter (fun p => has_builds_job p.2)
    else jobs_found
  if kw.last_build then get_last_build final_jobs else .ok final_jobs

/-- Modelled from the spec: `ServerSource.check_builds_for_test`
(cibyl/sources/server.py, not under src/) — "tests require at least one of
builds/last-build"; without either companion criterion in the kwargs a
`MissingArgument` is raised. -/
def check_builds_for_test (kw : Kwargs) : Except CibylErr Unit :=
  if kw.builds.isSome || kw.last_build then .ok ()
  else .error (.missingArgument "tests require --builds or --last-build")

/-- The test status derived in the `get_tests` loop: `SUCCESS` by default,
`SKIPPED` when skipped, overridden to `FAILURE` when failed. -/
def testStatusOf (tc : TestCaseXml) : String :=
  if tc.failure then "FAILURE" else if tc.skipped then "SKIPPED" else "SUCCESS"

/-- `ElasticSearch.match_filter_test_by_duration(test_duration, args)`
(src/cibyl/sources/elasticsearch/api.py, lines 432-453). -/
def match_filter_test_by_duration (dur : Int) (args : List (RangeOp × Int)) :
    Bool :=
  args.all (fun p => rangeOpApply p.1 dur p.2)

/-- Does a testcase survive the per-test filters of `get_tests`
(tests name/class pattern, test_result, test_duration)? -/
def keepTest (tp : Option (List String)) (tra : List String)
    (tda : List (RangeOp × Int)) (tc : TestCaseXml) : Bool :=
  (match tp with
    | some pats =>
        satisfy_regex_match pats tc.name ||
          (match tc.classname with
            | some cn => satisfy_regex_match pats cn
            | none => false)
    | none => true) &&
  (tra.isEmpty || tra.contains (testStatusOf tc)) &&
  (tda.isEmpty || match_filter_test_by_duration tc.time tda)

/-- The `Test(...)` object added for a surviving testcase; "Duration comes
in seconds. Convert to ms" applies only to a truthy (non-zero) time. -/
def testOfCase (tc : TestCaseXml) : TestR :=
  { result := some (testStatusOf tc)
    duration := some (if tc.time = 0 then tc.time else tc.time * 1000)
    class_name := tc.classname }

/-- One iteration of the `for build in hits` loop of `get_tests`: create
the job, `add_build`, then walk every test suite and `add_test` each
surviving testcase into `jobs_found[job_name].builds[build_id]`. -/
def addHitTests (tp : Option (List String)) (tra : List String)
    (tda : List (RangeOp × Int)) (acc : List (String × JobR)) (h : Hit) :
    List (String × JobR) :=
  let acc1 :=
    match alookup h.job_name acc with
    | some _ => acc
    | none => aappend acc h.job_name { url := some h.job_url, builds := [] }
  let bid := pyStr h.build_num
  let acc2 :=
    aupdate h.job_name (fun j => add_build j bid (buildOfHit h)) acc1
  h.test_suites.foldl
    (fun a suite =>
      suite.foldl
        (fun a2 tc =>
          if keepTest tp tra tda tc then
            aupdate h.job_name
              (fun j =>
                { j with
                    builds := aupdate bid
                      (fun b =>
                        { b with
                            tests := addTestToList b.tests tc.name
                              (testOfCase tc) }) j.builds }) a2
          else a2) a)
    acc2

/-- `ElasticSearch.get_tests(**kwargs)`
(src/cibyl/sources/elasticsearch/api.py, lines 303-430). -/
def get_tests (hits : List Hit) (kw : Kwargs) :
    Except CibylErr (List (String × JobR)) :=
  match check_builds_for_test kw with
  | .error e => .error e
  | .ok _ =>
      let build_filters := get_build_filters kw
      let hits2 := filter_builds (filter_jobs hits kw) build_filters
      let tests_pattern : Option (List String) :=
        match kw.tests with
        | some vals => if vals.isEmpty then none else some vals
        | none => none
      let test_result_argument : List String :=
        match kw.test_result with
        | some vals => vals.map pyUpper
        | none => []
      let test_duration_arguments : List (RangeOp × Int) :=
        match kw.test_duration with
        | some vals => vals
        | none => []
      let tests_filtering := tests_pattern.isSome ||
        !test_result_argument.isEmpty || !test_duration_arguments.isEmpty
      let jobs_found := hits2.foldl
        (addHitTests tests_pattern test_result_argument
          test_duration_arguments) []
      let final_jobs :=
        if tests_filtering then jobs_found.filter (fun p => has_tests_job p.2)
        else jobs_found
      if kw.last_build then get_last_build final_jobs else .ok final_jobs

/-! ## Source resolution -/

/-- A source as seen by the resolver: name, numeric priority, enabled
flag, and the handler methods it implements. -/
structure Source where
  name : String
  priority : Int
  enabled : Bool
  methods : List String
  deriving DecidableEq, Repr

/-- Modelled from the spec: `Source.get_source_method`
(cibyl/sources/source.py, not under src/) — "among the System's enabled
Sources, select those advertising `handlerName`; if several exist, pick
the one with the highest numeric priority; ties broken by source name for
determinism".  Returns the selected source (`none` embeds the
`NoCapableSource` fault). -/
def get_source_method (sources : List Source) (funcName : String) :
    Option Source :=
  (sources.filter (fun s => s.enabled && s.methods.contains funcName)).foldl
    (fun best s =>
      match best with
      | none => some s
      | some b =>
          if b.priority < s.priority ∨
              (b.priority = s.priority ∧ s.name < b.name) then some s
          else some b)
    none

/-! ## Association-list lemmas -/

theorem alookup_mem {α : Type} (k : String) (l : List (String × α)) (v : α)
    (h : alookup k l = some v) : (k, v) ∈ l := by
  induction l with
  | nil => simp [alookup] at h
  | cons p rest ih =>
      obtain ⟨k', w⟩ := p
      by_cases hk : k' = k
      · subst hk
        rw [alookup, if_pos rfl] at h
        rcases Option.some_injective _ h with rfl
        exact List.mem_cons_self _ _
      · rw [alookup, if_neg hk] at h
        exact List.mem_cons_of_mem _ (ih h)

theorem alookup_isSome_of_mem {α : Type} (k : String) (l : List (String × α))
    (v : α) (h : (k, v) ∈ l) : (alookup k l).isSome := by
  induction l with
  | nil => simp at h
  | cons p rest ih =>
      obtain ⟨k', w⟩ := p
      by_cases hk : k' = k
      · subst hk
        simp [alookup]
      · rw [alookup, if_neg hk]
        rcases List.mem_cons.mp h with h | h
        · exact absurd (congrArg Prod.fst h).symm hk
        · exact ih h

theorem mem_aupdate {α : Type} (k : String) (f : α → α) (l : List (String × α))
    (x : String × α) (h : x ∈ aupdate k f l) :
    x ∈ l ∨ ∃ v, alookup k l = some v ∧ x = (k, f v) := by
  induction l with
  | nil => simp [aupdate] at h
  | cons p rest ih =>
      obtain ⟨k', w⟩ := p
      by_cases hk : k' = k
      · subst hk
        rw [aupdate, if_pos rfl] at h
        rcases List.mem_cons.mp h with rfl | h
        · exact Or.inr ⟨w, by simp [alookup], rfl⟩
        · exact Or.inl (List.mem_cons_of_mem _ h)
      · rw [aupdate, if_neg hk] at h
        rcases List.mem_cons.mp h with rfl | h
        · exact Or.inl (List.mem_cons_self _ _)
        · rcases ih h with h | ⟨v, hv, rfl⟩
          · exact Or.inl (List.mem_cons_of_mem _ h)
          · exact Or.inr ⟨v, by rw [alookup, if_neg hk]; exact hv, rfl⟩

theorem alookup_aupdate_self {α : Type} (k : String) (f : α → α)
    (l : List (String × α)) :
    alookup k (aupdate k f l) = (alookup k l).map f := by
  induction l with
  | nil => simp [alookup, aupdate]
  | cons p rest ih =>
      obtain ⟨k', w⟩ := p
      by_cases hk : k' = k
      · subst hk
        simp [alookup, aupdate]
      · rw [aupdate, if_neg hk, alookup, if_neg hk, alookup, if_neg hk]
        exact ih

theorem alookup_aupdate_other {α : Type} (k k' : String) (f : α → α)
    (l : List (String × α)) (hk : k' ≠ k) :
    alookup k' (aupdate k f l) = alookup k' l := by
  induction l with
  | nil => simp [aupdate]
  | cons p rest ih =>
      obtain ⟨k0, w⟩ := p
      by_cases h0 : k0 = k
      · subst h0
        rw [aupdate, if_pos rfl, alookup, if_neg (Ne.symm hk), alookup,
          if_neg (Ne.symm hk)]
      · rw [aupdate, if_neg h0, alookup, alookup]
        by_cases h1 : k0 = k'
        · simp [h1]
        · rw [if_neg h1, if_neg h1]
          exact ih

theorem aupdate_noop {α : Type} (k : String) (f : α → α)
    (l : List (String × α)) (v : α) (hv : alookup k l = some v)
    (hf : f v = v) : aupdate k f l = l := by
  induction l with
  | nil => simp [aupdate]
  | cons p rest ih =>
      obtain ⟨k', w⟩ := p
      by_cases hk : k' = k
      · subst hk
        rw [alookup, if_pos rfl] at hv
        rcases Option.some_injective _ hv with rfl
        rw [aupdate, if_pos rfl, hf]
      · rw [alookup, if_neg hk] at hv
        rw [aupdate, if_neg hk, ih hv]

theorem alookup_aappend_self {α : Type} (k : String) (l : List (String × α))
    (v : α) :
    alookup k (aappend l k v) =
      (match alookup k l with
        | some w => some w
        | none => some v) := by
  induction l with
  | nil => simp [alookup, aappend]
  | cons p rest ih =>
      obtain ⟨k', w⟩ := p
      by_cases hk : k' = k
      · subst hk
        simp [aappend, alookup]
      · rw [aappend, List.cons_append, alookup, if_neg hk, alookup, if_neg hk]
        exact ih

theorem alookup_aappend_other {α : Type} (k k' : String)
    (l : List (String × α)) (v : α) (hk : k' ≠ k) :
    alookup k' (aappend l k v) = alookup k' l := by
  induction l with
  | nil => simp [alookup, aappend, Ne.symm hk]
  | cons p rest ih =>
      obtain ⟨k0, w⟩ := p
      rw [aappend, List.cons_append, alookup, alookup]
      by_cases h0 : k0 = k'
      · simp [h0]
      · rw [if_neg h0, if_neg h0]
        exact ih

theorem alookup_addKV_self {α : Type} (m : α → α → α) (l : List (String × α))
    (k : String) (v : α) :
    alookup k (addKV m l k v) =
      (match alookup k l with
        | some o => some (m o v)
        | none => some v) := by
  unfold addKV
  cases h : alookup k l with
  | some o => rw [alookup_aupdate_self, h]; rfl
  | none => rw [alookup_aappend_self, h]

theorem alookup_addKV_other {α : Type} (m : α → α → α) (l : List (String × α))
    (k k' : String) (v : α) (hk : k' ≠ k) :
    alookup k' (addKV m l k v) = alookup k' l := by
  unfold addKV
  cases h : alookup k l with
  | some o => exact alookup_aupdate_other k k' _ l hk
  | none => exact alookup_aappend_other k k' l v hk

theorem alookup_addKV_isSome {α : Type} (m : α → α → α)
    (l : List (String × α)) (k k' : String) (v : α)
    (h : (alookup k' l).isSome) : (alookup k' (addKV m l k v)).isSome := by
  by_cases hk : k' = k
  · subst hk
    rw [alookup_addKV_self]
    cases alookup k' l <;> simp
  · rw [alookup_addKV_other m l k k' v hk]
    exact h

/-- After an `addKV` fold, a key absent from the added list keeps its
binding. -/
theorem alookup_foldl_addKV_not_mem {α : Type} (m : α → α → α)
    (new : List (String × α)) (l : List (String × α)) (k : String)
    (hk : k ∉ new.map Prod.fst) :
    alookup k (new.foldl (fun acc p => addKV m acc p.1 p.2) l) = alookup k l := by
  induction new generalizing l with
  | nil => rfl
  | cons p rest ih =>
      simp only [List.map_cons, List.mem_cons] at hk
      push_neg at hk
      rw [List.foldl_cons, ih _ hk.2,
        alookup_addKV_other m l p.1 k p.2 hk.1]

/-- After an `addKV` fold of a list with distinct keys, the binding of a
key occurring in the list is the merge of its old binding (if any) with
the added value. -/
theorem alookup_foldl_addKV_mem {α : Type} (m : α → α → α)
    (new : List (String × α)) (l : List (String × α)) (k : String) (v : α)
    (hmem : (k, v) ∈ new) (hnodup : (new.map Prod.fst).Nodup) :
    alookup k (new.foldl (fun acc p => addKV m acc p.1 p.2) l) =
      (match alookup k l with
        | some o => some (m o v)
        | none => some v) := by
  induction new generalizing l with
  | nil => simp at hmem
  | cons p rest ih =>
      rw [List.map_cons, List.nodup_cons] at hnodup
      rcases List.mem_cons.mp hmem with rfl | hmem
      · rw [List.foldl_cons,
          alookup_foldl_addKV_not_mem m rest _ k hnodup.1,
          alookup_addKV_self]
      · have hk : k ≠ p.1 := by
          intro h
          exact hnodup.1 (h ▸ List.mem_map_of_mem Prod.fst hmem)
        rw [List.foldl_cons, ih _ hmem hnodup.2,
          alookup_addKV_other m l p.1 k p.2 hk]

/-- An `addKV` fold whose every entry is already absorbed by the dict is a
no-op. -/
theorem foldl_addKV_noop {α : Type} (m : α → α → α)
    (new : List (String × α)) (l : List (String × α))
    (h : ∀ p ∈ new, ∃ v, alookup p.1 l = some v ∧ m v p.2 = v) :
    new.foldl (fun acc p => addKV m acc p.1 p.2) l = l := by
  induction new with
  | nil => rfl
  | cons p rest ih =>
      obtain ⟨v, hv, hm⟩ := h p (List.mem_cons_self _ _)
      have hstep : addKV m l p.1 p.2 = l := by
        unfold addKV
        rw [hv]
        exact aupdate_noop p.1 _ l v hv hm
      rw [List.foldl_cons, hstep]
      exact ih (fun q hq => h q (List.mem_cons_of_mem _ hq))

/-- Absorption for the `addKV` fold: folding the same keyed list in twice
equals folding it in once, provided the keys are distinct and the merge
absorbs a repeated right argument. -/
theorem foldl_addKV_idem {α : Type} (m : α → α → α)
    (new : List (String × α)) (hnodup : (new.map Prod.fst).Nodup)
    (habs : ∀ p ∈ new, ∀ a, m (m a p.2) p.2 = m a p.2)
    (hself : ∀ p ∈ new, m p.2 p.2 = p.2) (l : List (String × α)) :
    new.foldl (fun acc p => addKV m acc p.1 p.2)
        (new.foldl (fun acc p => addKV m acc p.1 p.2) l) =
      new.foldl (fun acc p => addKV m acc p.1 p.2) l := by
  apply foldl_addKV_noop
  intro p hp
  have hl := alookup_foldl_addKV_mem m new l p.1 p.2 hp hnodup
  cases hcase : alookup p.1 l with
  | some o =>
      rw [hcase] at hl
      exact ⟨m o p.2, hl, habs p hp o⟩
  | none =>
      rw [hcase] at hl
      exact ⟨p.2, hl, hself p hp⟩

/-! ## Merge algebra: idempotence and monotonicity -/

theorem mergeOpt_absorb {α : Type} (a b : Option α) :
    mergeOpt (mergeOpt a b) b = mergeOpt a b := by
  cases b <;> rfl

theorem mergeOpt_self {α : Type} (a : Option α) : mergeOpt a a = a := by
  cases a <;> rfl

theorem mergeTest_absorb (a t : TestR) :
    mergeTest (mergeTest a t) t = mergeTest a t := by
  simp [mergeTest, mergeOpt_absorb]

theorem mergeTest_self (t : TestR) : mergeTest t t = t := by
  simp [mergeTest, mergeOpt_self]

/-- Well-formed dict: the binding of a key present in a duplicate-free
dict is the stored pair itself. -/
theorem alookup_eq_of_mem_nodup {α : Type} :
    ∀ (l : List (String × α)) (k : String) (v : α), (k, v) ∈ l →
      (l.map Prod.fst).Nodup → alookup k l = some v
  | [], _, _, hmem, _ => by simp at hmem
  | (k', w) :: rest, k, v, hmem, hnodup => by
      rw [List.map_cons, List.nodup_cons] at hnodup
      rcases List.mem_cons.mp hmem with heq | hmem2
      · injection heq with h1 h2
        subst h1
        subst h2
        simp [alookup]
      · have hk : k' ≠ k := by
          intro h
          subst h
          have hin := List.mem_map_of_mem Prod.fst hmem2
          exact hnodup.1 hin
        rw [alookup, if_neg hk]
        exact alookup_eq_of_mem_nodup rest k v hmem2 hnodup.2

/-- A build is well formed when its test dict has no duplicate names. -/
def WFBuild (b : BuildR) : Prop := (b.tests.map Prod.fst).Nodup

/-- A job is well formed when its build dict has no duplicate ids and
every build is well formed. -/
def WFJob (j : JobR) : Prop :=
  (j.builds.map Prod.fst).Nodup ∧ ∀ p ∈ j.builds, WFBuild p.2

theorem mergeBuild_absorb (a x : BuildR) (hx : WFBuild x) :
    mergeBuild (mergeBuild a x) x = mergeBuild a x := by
  unfold mergeBuild
  simp only [mergeOpt_absorb]
  refine congrArg _ ?_
  show x.tests.foldl (fun acc p => addKV mergeTest acc p.1 p.2)
      (x.tests.foldl (fun acc p => addKV mergeTest acc p.1 p.2) a.tests) =
    x.tests.foldl (fun acc p => addKV mergeTest acc p.1 p.2) a.tests
  exact foldl_addKV_idem mergeTest x.tests hx
    (fun p _ a' => mergeTest_absorb a' p.2) (fun p _ => mergeTest_self p.2)
    a.tests

theorem mergeBuild_self (b : BuildR) (hb : WFBuild b) : mergeBuild b b = b := by
  unfold mergeBuild
  simp only [mergeOpt_self]
  have : b.tests.foldl (fun acc p => addTestToList acc p.1 p.2) b.tests =
      b.tests := by
    apply foldl_addKV_noop
    intro p hp
    exact ⟨p.2, alookup_eq_of_mem_nodup b.tests p.1 p.2 hp hb,
      mergeTest_self p.2⟩
  rw [this]

theorem mergeJob_absorb (a j : JobR) (hj : WFJob j) :
    mergeJob (mergeJob a j) j = mergeJob a j := by
  unfold mergeJob
  simp only [mergeOpt_absorb]
  refine congrArg _ ?_
  show j.builds.foldl (fun acc p => addKV mergeBuild acc p.1 p.2)
      (j.builds.foldl (fun acc p => addKV mergeBuild acc p.1 p.2) a.builds) =
    j.builds.foldl (fun acc p => addKV mergeBuild acc p.1 p.2) a.builds
  exact foldl_addKV_idem mergeBuild j.builds hj.1
    (fun p hp a' => mergeBuild_absorb a' p.2 (hj.2 p hp))
    (fun p hp => mergeBuild_self p.2 (hj.2 p hp)) a.builds

theorem mergeJob_self (j : JobR) (hj : WFJob j) : mergeJob j j = j := by
  unfold mergeJob
  simp only [mergeOpt_self]
  have : j.builds.foldl (fun acc p => addBuildToList acc p.1 p.2) j.builds =
      j.builds := by
    apply foldl_addKV_noop
    intro p hp
    exact ⟨p.2, alookup_eq_of_mem_nodup j.builds p.1 p.2 hp hj.1,
      mergeBuild_self p.2 (hj.2 p hp)⟩
  rw [this]

theorem addKV_of_lookup_some {α : Type} (m : α → α → α)
    (l : List (String × α)) (k : String) (v w : α)
    (h : alookup k l = some w) :
    addKV m l k v = aupdate k (fun o => m o v) l := by
  unfold addKV
  rw [h]

theorem addKV_idem {α : Type} (m : α → α → α) (k : String) (v : α)
    (habs : ∀ a, m (m a v) v = m a v) (hself : m v v = v)
    (l : List (String × α)) :
    addKV m (addKV m l k v) k v = addKV m l k v := by
  have hl := alookup_addKV_self m l k v
  cases hcase : alookup k l with
  | some o =>
      rw [hcase] at hl
      rw [addKV_of_lookup_some m _ k v (m o v) hl]
      exact aupdate_noop k _ _ (m o v) hl (habs o)
  | none =>
      rw [hcase] at hl
      rw [addKV_of_lookup_some m _ k v v hl]
      exact aupdate_noop k _ _ v hl hself

theorem mergeJob_url_mono (old nw : JobR) (h : old.url.isSome) :
    (mergeJob old nw).url.isSome := by
  unfold mergeJob
  cases hn : nw.url <;> simp [mergeOpt, hn, h]

/-- **C9.** Merge idempotence and monotonicity: merging the same
(well-formed) job into a system twice produces the same populated model
as merging it once; a later partial result with a field absent preserves
the earlier value of that field (job URL, build status); a populated
field never reverts to unset under any single merge; and for every
sequence of merges into a system, a job whose URL was populated stays
present with a populated URL. -/
theorem merge_idempotent_monotone :
    (∀ (sys : List (String × JobR)) (n : String) (j : JobR), WFJob j →
        add_job (add_job sys n j) n j = add_job sys n j) ∧
    (∀ old nw : JobR, nw.url = none → (mergeJob old nw).url = old.url) ∧
    (∀ old nw : BuildR, nw.status = none →
        (mergeBuild old nw).status = old.status) ∧
    (∀ old nw : JobR, old.url.isSome → (mergeJob old nw).url.isSome) ∧
    (∀ old nw : BuildR, old.status.isSome →
        (mergeBuild old nw).status.isSome) ∧
    (∀ (sys merges : List (String × JobR)) (n : String) (j0 : JobR),
        alookup n sys = some j0 → j0.url.isSome →
        ∃ j1, alookup n
            (merges.foldl (fun acc p => add_job acc p.1 p.2) sys) = some j1 ∧
          j1.url.isSome) := by
  refine ⟨?_, ?_, ?_, ?_, ?_, ?_⟩
  · intro sys n j hj
    exact addKV_idem mergeJob n j (fun a => mergeJob_absorb a j hj)
      (mergeJob_self j hj) sys
  · intro old nw h
    unfold mergeJob
    simp [mergeOpt, h]
  · intro old nw h
    unfold mergeBuild
    simp [mergeOpt, h]
  · intro old nw h
    exact mergeJob_url_mono old nw h
  · intro old nw h
    unfold mergeBuild
    cases hn : nw.status <;> simp [mergeOpt, hn, h]
  · intro sys merges n j0 hl hu
    induction merges generalizing sys j0 with
    | nil => exact ⟨j0, hl, hu⟩
    | cons p rest ih =>
        rw [List.foldl_cons]
        by_cases hk : n = p.1
        · subst hk
          have h1 : alookup p.1 (add_job sys p.1 p.2) =
              some (mergeJob j0 p.2) := by
            unfold add_job
            rw [alookup_addKV_self, hl]
          exact ih _ _ h1 (mergeJob_url_mono j0 p.2 hu)
        · have h1 : alookup n (add_job sys p.1 p.2) = some j0 := by
            unfold add_job
            rw [alookup_addKV_other mergeJob sys p.1 n p.2 hk]
            exact hl
          exact ih _ _ h1 hu

/-- A concrete populated job used by the merge witnesses. -/
def witJob : JobR :=
  { url := some "http://h/job1"
    builds := [("1", { status := some "SUCCESS", duration := none, tests := [] })] }

/-- A concrete URL-less partial job used by the merge witnesses. -/
def witJobBare : JobR := { url := none, builds := [] }

/-- A concrete job with only a URL, used by the merge witnesses. -/
def witJobUrl : JobR := { url := some "http://h/job1", builds := [] }

/-- Witness for C9 at a concrete system and job: re-merging the job is a
no-op, and the URL populated by the first merge survives a later merge of
a URL-less partial job. -/
theorem merge_idempotent_monotone_witness :
    add_job (add_job [] "job1" witJob) "job1" witJob =
      add_job [] "job1" witJob ∧
    (∃ j1, alookup "job1"
        ([("job1", witJobBare)].foldl (fun acc p => add_job acc p.1 p.2)
          [("job1", witJobUrl)]) = some j1 ∧ j1.url.isSome) := by
  constructor
  · exact merge_idempotent_monotone.1 [] "job1" witJob
      (by unfold WFJob WFBuild witJob; decide)
  · exact merge_idempotent_monotone.2.2.2.2.2
      [("job1", witJobUrl)] [("job1", witJobBare)] "job1" witJobUrl
      (by decide) (by decide)

/-! ## Source resolution: the selected candidate maximises priority -/

/-- The fold step of `get_source_method`. -/
def pickBetter (best : Option Source) (s : Source) : Option Source :=
  match best with
  | none => some s
  | some b =>
      if b.priority < s.priority ∨
          (b.priority = s.priority ∧ s.name < b.name) then some s
      else some b

theorem pickBetter_spec (best : Option Source) (s : Source) :
    ∃ c, pickBetter best s = some c ∧ (c = s ∨ best = some c) ∧
      s.priority ≤ c.priority ∧
      (∀ v, best = some v → v.priority ≤ c.priority) := by
  cases best with
  | none =>
      refine ⟨s, rfl, Or.inl rfl, le_refl _, ?_⟩
      intro v h
      cases h
  | some b =>
      by_cases hc : b.priority < s.priority ∨
          (b.priority = s.priority ∧ s.name < b.name)
      · refine ⟨s, ?_, Or.inl rfl, le_refl _, ?_⟩
        · simp only [pickBetter]
          rw [if_pos hc]
        · intro v hv
          rcases Option.some_injective _ hv with rfl
          rcases hc with hc | hc
          · exact le_of_lt hc
          · exact le_of_eq hc.1
      · have hc1 : ¬ b.priority < s.priority := fun h => hc (Or.inl h)
        refine ⟨b, ?_, Or.inr rfl, le_of_not_lt hc1, ?_⟩
        · simp only [pickBetter]
          rw [if_neg hc]
        · intro v hv
          rcases Option.some_injective _ hv with rfl
          exact le_refl _

theorem foldl_pickBetter_spec (l : List Source) (acc : Option Source) :
    (l = [] ∧ l.foldl pickBetter acc = acc) ∨
    (∃ b, l.foldl pickBetter acc = some b ∧ (b ∈ l ∨ acc = some b) ∧
      (∀ t ∈ l, t.priority ≤ b.priority) ∧
      (∀ v, acc = some v → v.priority ≤ b.priority)) := by
  induction l generalizing acc with
  | nil => exact Or.inl ⟨rfl, rfl⟩
  | cons s rest ih =>
      obtain ⟨c, hc, hcs, hsp, hacc⟩ := pickBetter_spec acc s
      rcases ih (some c) with ⟨hrest, hfold⟩ | ⟨b, hb, hbm, hblb, hbacc⟩
      · subst hrest
        refine Or.inr ⟨c, ?_, ?_, ?_, hacc⟩
        · rw [List.foldl_cons, hc, hfold]
        · rcases hcs with rfl | h
          · exact Or.inl (List.mem_cons_self _ _)
          · exact Or.inr h
        · intro t ht
          rcases List.mem_cons.mp ht with rfl | ht
          · exact hsp
          · simp at ht
      · have hcb : c.priority ≤ b.priority := hbacc c rfl
        refine Or.inr ⟨b, ?_, ?_, ?_, ?_⟩
        · rw [List.foldl_cons, hc, hb]
        · rcases hbm with h | h
          · exact Or.inl (List.mem_cons_of_mem _ h)
          · rcases Option.some_injective _ h with rfl
            rcases hcs with rfl | h2
            · exact Or.inl (List.mem_cons_self _ _)
            · exact Or.inr h2
        · intro t ht
          rcases List.mem_cons.mp ht with rfl | ht
          · exact le_trans hsp hcb
          · exact hblb t ht
        · intro v hv
          exact le_trans (hacc v hv) hcb

/-- The concrete scenario sources of the spec: `jenkins` at priority 0
and `elastic` at priority 5, both enabled and both advertising
`fetchJobs`. -/
def jenkinsSrc : Source :=
  { name := "jenkins", priority := 0, enabled := true,
    methods := ["fetchJobs"] }

def elasticSrc : Source :=
  { name := "elastic", priority := 5, enabled := true,
    methods := ["fetchJobs"] }

/-- **C3.** Source resolution selects exactly one source per
(system, handler) pair: whenever it returns a source, that source is one
of the system's sources, is enabled, advertises the handler, and has
maximal priority among the enabled sources advertising the handler
(resolution is a pure function of the source list, hence deterministic);
and in the concrete scenario with enabled sources `jenkins` (priority 0)
and `elastic` (priority 5) both implementing `fetchJobs`, resolving
`fetchJobs` returns `elastic`. -/
theorem get_source_method_selects_max :
    (∀ (sources : List Source) (fn : String) (s : Source),
        get_source_method sources fn = some s →
        s ∈ sources ∧ s.enabled = true ∧ s.methods.contains fn = true ∧
          ∀ t ∈ sources, t.enabled = true → t.methods.contains fn = true →
            t.priority ≤ s.priority) ∧
    get_source_method [jenkinsSrc, elasticSrc] "fetchJobs" = some elasticSrc := by
  constructor
  · intro sources fn s hs
    unfold get_source_method at hs
    have hfold := foldl_pickBetter_spec
      (sources.filter (fun t => t.enabled && t.methods.contains fn)) none
    have hstep : (sources.filter
        (fun t => t.enabled && t.methods.contains fn)).foldl
        (fun best t => pickBetter best t) none = some s := hs
    rcases hfold with ⟨_, hfold⟩ | ⟨b, hb, hbm, hblb, _⟩
    · rw [hstep] at hfold
      cases hfold
    · rw [hstep] at hb
      rcases Option.some_injective _ hb.symm with rfl
      rcases hbm with hmem | habs
      · have hprop := List.of_mem_filter hmem
        have hsmem := List.mem_of_mem_filter hmem
        rw [Bool.and_eq_true] at hprop
        refine ⟨hsmem, hprop.1, hprop.2, ?_⟩
        intro t ht hte htm
        exact hblb t (List.mem_filter.mpr ⟨ht, by rw [Bool.and_eq_true]; exact ⟨hte, htm⟩⟩)
      · cases habs
  · decide

/-- Witness for C3: resolving `fetchJobs` in the scenario yields
`elastic`, which the theorem certifies to be enabled, capable, and of
maximal priority. -/
theorem get_source_method_selects_max_witness :
    elasticSrc ∈ [jenkinsSrc, elasticSrc] ∧
      elasticSrc.enabled = true ∧
      elasticSrc.methods.contains "fetchJobs" = true ∧
      jenkinsSrc.priority ≤ elasticSrc.priority := by
  have h := get_source_method_selects_max
  have hres := h.1 [jenkinsSrc, elasticSrc] "fetchJobs" elasticSrc h.2
  exact ⟨hres.1, hres.2.1, hres.2.2.1,
    hres.2.2.2 jenkinsSrc (by decide) (by decide) (by decide)⟩

/-! ## `get_last_build`: numeric maximum and `ValueError` behaviour -/

/-- The last element of a list sorted weakly ascending by `key` dominates
every element. -/
theorem pairwise_le_getLast {α : Type} (key : α → Int) :
    ∀ (l : List α), l.Pairwise (fun a b => key a ≤ key b) → l ≠ [] →
      ∃ m, l.getLast? = some m ∧ m ∈ l ∧ ∀ x ∈ l, key x ≤ key m
  | [], _, hne => absurd rfl hne
  | [a], _, _ => ⟨a, rfl, List.mem_singleton_self a, by
      intro x hx
      rcases List.mem_singleton.mp hx with rfl
      exact le_refl _⟩
  | a :: b :: l, hp, _ => by
      rcases List.pairwise_cons.mp hp with ⟨ha, hp'⟩
      obtain ⟨m, hm, hmem, hall⟩ :=
        pairwise_le_getLast key (b :: l) hp' (List.cons_ne_nil b l)
      refine ⟨m, ?_, List.mem_cons_of_mem a hmem, ?_⟩
      · rw [List.getLast?_cons_cons]
        exact hm
      · intro x hx
        rcases List.mem_cons.mp hx with rfl | hx
        · exact le_trans (ha m hmem) (le_refl _)
        · exact hall x hx

theorem intKeys_some_spec :
    ∀ (builds : List (String × BuildR)) (keyed : List (String × Int)),
      intKeys builds = some keyed →
      keyed.map Prod.fst = builds.map Prod.fst ∧
        ∀ p ∈ keyed, pyInt p.1 = some p.2
  | [], keyed, h => by
      rcases Option.some_injective _ h with rfl
      exact ⟨rfl, by simp⟩
  | (k, b) :: rest, keyed, h => by
      rw [intKeys] at h
      cases hk : pyInt k with
      | none => rw [hk] at h; cases h
      | some n =>
          rw [hk] at h
          cases hr : intKeys rest with
          | none => rw [hr] at h; cases h
          | some ks =>
              rw [hr] at h
              rcases Option.some_injective _ h with rfl
              obtain ⟨hmap, hvals⟩ := intKeys_some_spec rest ks hr
              refine ⟨by simp [hmap], ?_⟩
              intro p hp
              rcases List.mem_cons.mp hp with rfl | hp
              · exact hk
              · exact hvals p hp

theorem intKeys_isSome :
    ∀ (builds : List (String × BuildR)),
      (∀ q ∈ builds, (pyInt q.1).isSome) →
      ∃ keyed, intKeys builds = some keyed
  | [], _ => ⟨[], rfl⟩
  | (k, b) :: rest, h => by
      have hk := h (k, b) (List.mem_cons_self _ _)
      obtain ⟨n, hn⟩ := Option.isSome_iff_exists.mp hk
      obtain ⟨ks, hks⟩ :=
        intKeys_isSome rest (fun q hq => h q (List.mem_cons_of_mem _ hq))
      exact ⟨(k, n) :: ks, by rw [intKeys, hn, hks]⟩

theorem intKeys_none :
    ∀ (builds : List (String × BuildR)) (q : String × BuildR),
      q ∈ builds → pyInt q.1 = none → intKeys builds = none
  | [], q, hq, _ => by simp at hq
  | (k, b) :: rest, q, hq, hbad => by
      rcases List.mem_cons.mp hq with rfl | hq
      · rw [intKeys, hbad]
      · rw [intKeys, intKeys_none rest q hq hbad]
        cases pyInt k <;> rfl

/-- When every build id of a nonempty build dict is numeric,
`lastBuildOfJob` succeeds and returns the job reduced to a single build
whose id has maximal integer value. -/
theorem lastBuildOfJob_numeric_max (j : JobR)
    (hne : j.builds ≠ [])
    (hnum : ∀ q ∈ j.builds, (pyInt q.1).isSome) :
    ∃ k bld, (k, bld) ∈ j.builds ∧
      lastBuildOfJob j = .ok (some { url := j.url, builds := [(k, bld)] }) ∧
      ∀ q ∈ j.builds, ∃ nk nq, pyInt k = some nk ∧ pyInt q.1 = some nq ∧
        nq ≤ nk := by
  obtain ⟨keyed, hkeyed⟩ := intKeys_isSome j.builds hnum
  obtain ⟨hmap, hvals⟩ := intKeys_some_spec j.builds keyed hkeyed
  have hkne : keyed ≠ [] := by
    intro hk0
    subst hk0
    simp only [List.map_nil] at hmap
    exact hne (List.map_eq_nil_iff.mp hmap.symm)
  have hsne : sortAscBy (fun p => p.2) keyed ≠ [] := by
    obtain ⟨x, hx⟩ := List.exists_mem_of_ne_nil keyed hkne
    intro h
    have := (mem_sortAscBy (fun p => p.2) keyed x).mpr hx
    rw [h] at this
    simp at this
  obtain ⟨m, hm, hmmem, hall⟩ := pairwise_le_getLast (fun p => p.2)
    (sortAscBy (fun p => p.2) keyed)
    (pairwise_sortAscBy (fun p => p.2) keyed) hsne
  obtain ⟨lastKey, n⟩ := m
  have hmk : (lastKey, n) ∈ keyed :=
    (mem_sortAscBy (fun p => p.2) keyed _).mp hmmem
  have hlk : pyInt lastKey = some n := hvals _ hmk
  have hkeymem : lastKey ∈ j.builds.map Prod.fst := by
    rw [← hmap]
    exact List.mem_map_of_mem Prod.fst hmk
  obtain ⟨q0, hq0, hq0k⟩ := List.mem_map.mp hkeymem
  have hlook : (alookup lastKey j.builds).isSome := by
    have : (lastKey, q0.2) ∈ j.builds := by
      obtain ⟨a, bb⟩ := q0
      simp only at hq0k
      subst hq0k
      exact hq0
    exact alookup_isSome_of_mem lastKey j.builds q0.2 this
  obtain ⟨bld, hbld⟩ := Option.isSome_iff_exists.mp hlook
  refine ⟨lastKey, bld, alookup_mem lastKey j.builds bld hbld, ?_, ?_⟩
  · unfold lastBuildOfJob
    rw [if_neg (by simpa using hne), hkeyed]
    simp only [hm, hbld]
  · intro q hq
    have hqkey : q.1 ∈ keyed.map Prod.fst := by
      rw [hmap]
      exact List.mem_map_of_mem Prod.fst hq
    obtain ⟨p, hp, hpk⟩ := List.mem_map.mp hqkey
    have hnq : pyInt p.1 = some p.2 := hvals p hp
    have hps : p ∈ sortAscBy (fun p => p.2) keyed :=
      (mem_sortAscBy (fun p => p.2) keyed p).mpr hp
    refine ⟨n, p.2, hlk, by rw [← hpk]; exact hnq, hall p hps⟩

/-- `lastBuildOfJob` can only fail with a `ValueError`. -/
theorem lastBuildOfJob_error (j : JobR) (e : CibylErr)
    (h : lastBuildOfJob j = .error e) : ∃ msg, e = .valueError msg := by
  unfold lastBuildOfJob at h
  split at h
  · exact Except.noConfusion h
  · split at h
    · exact ⟨_, ((Except.error.injEq _ _).mp h).symm⟩
    · split at h
      · exact Except.noConfusion h
      · split at h
        · exact Except.noConfusion h
        · exact Except.noConfusion h

/-- Concrete builds keyed `"2"`, `"10"`, `"3"` for the last-build
scenario. -/
def buildTwo : BuildR := { status := some "SUCCESS", duration := none, tests := [] }

def buildTen : BuildR := { status := some "FAIL", duration := some 7, tests := [] }

def buildThree : BuildR := { status := some "SUCCESS", duration := none, tests := [] }

def numericJob : JobR :=
  { url := some "http://h/job", builds := [("2", buildTwo), ("10", buildTen), ("3", buildThree)] }

/-- **C4.** `get_last_build` selects, for every job that has builds, the
build whose identifier is numerically greatest when identifiers are
compared as integers (not lexicographically as strings): whenever all
identifiers are numeric the call succeeds and each nonempty job
contributes exactly its integer-maximal build; in particular, for builds
keyed `"2"`, `"10"`, `"3"` the last build is `"10"`. -/
theorem get_last_build_numeric_max :
    (∀ (jobs : List (String × JobR)),
        (∀ p ∈ jobs, ∀ q ∈ p.2.builds, (pyInt q.1).isSome) →
        ∃ res, get_last_build jobs = .ok res ∧
          ∀ p ∈ jobs, p.2.builds ≠ [] →
            ∃ k bld, (k, bld) ∈ p.2.builds ∧
              (p.1, { url := p.2.url, builds := [(k, bld)] }) ∈ res ∧
              ∀ q ∈ p.2.builds, ∃ nk nq, pyInt k = some nk ∧
                pyInt q.1 = some nq ∧ nq ≤ nk) ∧
    get_last_build [("job", numericJob)] =
      .ok [("job", { url := some "http://h/job", builds := [("10", buildTen)] })] := by
  constructor
  · intro jobs hnum
    induction jobs with
    | nil =>
        exact ⟨[], rfl, by simp⟩
    | cons p rest ih =>
        obtain ⟨name, j⟩ := p
        obtain ⟨res, hres, hprop⟩ :=
          ih (fun q hq => hnum q (List.mem_cons_of_mem _ hq))
        by_cases hne : j.builds = []
        · have hstep : lastBuildOfJob j = .ok none := by
            unfold lastBuildOfJob
            rw [if_pos (by simpa using hne)]
          refine ⟨res, ?_, ?_⟩
          · simp only [get_last_build, hstep]
            exact hres
          · intro q hq hqne
            rcases List.mem_cons.mp hq with rfl | hq
            · exact absurd hne hqne
            · exact hprop q hq hqne
        · obtain ⟨k, bld, hmem, hstep, hmax⟩ := lastBuildOfJob_numeric_max j
            hne (hnum (name, j) (List.mem_cons_self _ _))
          refine ⟨(name, { url := j.url, builds := [(k, bld)] }) :: res, ?_, ?_⟩
          · simp only [get_last_build, hstep, hres, Except.map]
          · intro q hq hqne
            rcases List.mem_cons.mp hq with rfl | hq
            · exact ⟨k, bld, hmem, List.mem_cons_self _ _, hmax⟩
            · obtain ⟨k', bld', h1, h2, h3⟩ := hprop q hq hqne
              exact ⟨k', bld', h1, List.mem_cons_of_mem _ h2, h3⟩
  · rfl

/-- Witness for C4: the general part applied to the concrete jobs list
with builds `"2"`, `"10"`, `"3"` (all numeric) yields a successful result
in which the selected identifier dominates every identifier numerically. -/
theorem get_last_build_numeric_max_witness :
    ∃ res, get_last_build [("job", numericJob)] = .ok res ∧
      ∃ k bld, (k, bld) ∈ numericJob.builds ∧
        ("job", { url := numericJob.url, builds := [(k, bld)] }) ∈ res ∧
        ∀ q ∈ numericJob.builds, ∃ nk nq, pyInt k = some nk ∧
          pyInt q.1 = some nq ∧ nq ≤ nk := by
  obtain ⟨res, hres, hprop⟩ :=
    get_last_build_numeric_max.1 [("job", numericJob)] (by decide)
  obtain ⟨k, bld, h1, h2, h3⟩ :=
    hprop ("job", numericJob) (List.mem_cons_self _ _) (by decide)
  exact ⟨res, hres, k, bld, h1, h2, h3⟩

/-- A job holding a build with the non-numeric identifier `"abc"`. -/
def badIdJob : JobR :=
  { url := some "http://h/bad", builds := [("abc", buildTwo)] }

/-- **C5, counterexample.** A non-numeric build identifier is *not*
logged-and-skipped: `int("abc")` raises `ValueError` inside
`sorted(builds.keys(), key=int)` and the exception propagates out of
`get_last_build` uncaught — the call fails instead of returning a result
with that system skipped. -/
theorem get_last_build_nonnumeric_cex :
    get_last_build [("badjob", badIdJob)] =
      .error (.valueError "invalid literal for int() with base 10") := by
  rfl

/-- **C5, amended.** When any job in the input mapping has a build dict
containing a non-numeric build identifier, `get_last_build` raises
`ValueError` (uncaught, propagating to the caller) instead of logging and
skipping that system. -/
theorem get_last_build_nonnumeric_raises :
    ∀ (jobs : List (String × JobR)) (p : String × JobR), p ∈ jobs →
      ∀ q ∈ p.2.builds, pyInt q.1 = none →
      ∃ msg, get_last_build jobs = .error (.valueError msg)
  | [], p, hp, _, _, _ => by simp at hp
  | (name, j) :: rest, p, hp, q, hq, hbad => by
      rcases List.mem_cons.mp hp with rfl | hp
      · have hq' : q ∈ j.builds := hq
        have hkeys : intKeys j.builds = none :=
          intKeys_none j.builds q hq' hbad
        have hne : ¬ j.builds.isEmpty := by
          cases hbuilds : j.builds with
          | nil => rw [hbuilds] at hq'; simp at hq'
          | cons x xs => simp
        have hstep : lastBuildOfJob j =
            .error (.valueError "invalid literal for int() with base 10") := by
          unfold lastBuildOfJob
          rw [if_neg hne, hkeys]
        refine ⟨"invalid literal for int() with base 10", ?_⟩
        simp only [get_last_build, hstep]
      · obtain ⟨msg, hmsg⟩ :=
          get_last_build_nonnumeric_raises rest p hp q hq hbad
        cases hstep : lastBuildOfJob j with
        | error e =>
            obtain ⟨m, rfl⟩ := lastBuildOfJob_error j e hstep
            exact ⟨m, by simp only [get_last_build, hstep]⟩
        | ok o =>
            cases o with
            | none =>
                refine ⟨msg, ?_⟩
                simp only [get_last_build, hstep]
                exact hmsg
            | some j' =>
                refine ⟨msg, ?_⟩
                simp only [get_last_build, hstep, hmsg, Except.map]

/-- Witness for the amended C5: the concrete bad mapping raises a
`ValueError`. -/
theorem get_last_build_nonnumeric_raises_witness :
    ∃ msg, get_last_build [("badjob", badIdJob)] =
      .error (.valueError msg) :=
  get_last_build_nonnumeric_raises [("badjob", badIdJob)]
    ("badjob", badIdJob) (List.mem_cons_self _ _) ("abc", buildTwo)
    (by decide) (by decide)

/-! ## The filter pipeline is conjunctive -/

theorem mem_apply_filters {α : Type} (records : List α)
    (checks : List (α → Bool)) (x : α) :
    x ∈ apply_filters records checks ↔
      x ∈ records ∧ ∀ c ∈ checks, c x = true := by
  induction checks generalizing records with
  | nil => simp [apply_filters]
  | cons c cs ih =>
      rw [apply_filters, ih]
      simp only [List.mem_filter, List.mem_cons]
      constructor
      · rintro ⟨⟨hx, hc⟩, hcs⟩
        refine ⟨hx, ?_⟩
        intro d hd
        rcases hd with rfl | hd
        · exact hc
        · exact hcs d hd
      · rintro ⟨hx, hall⟩
        exact ⟨⟨hx, hall c (Or.inl rfl)⟩, fun d hd => hall d (Or.inr hd)⟩

/-- A sample Elasticsearch hit: job `test`, build `1`, result `SUCCESS`. -/
def hitSuccess : Hit :=
  { job_name := "test", job_url := "http://domain.tld/test/",
    build_num := .s "1", build_result := "SUCCESS", build_duration := none,
    test_suites := [] }

/-- A sample Elasticsearch hit: job `test`, build `2`, result `FAIL`. -/
def hitFail : Hit :=
  { job_name := "test", job_url := "http://domain.tld/test/",
    build_num := .s "2", build_result := "FAIL", build_duration := none,
    test_suites := [] }

/-- **C7.** The filter pipeline is conjunctive: for every list of records
and every chain of filter stages, a record appears in the filtered output
iff every stage returns true for it, and the empty chain retains every
record; this holds both for the generic `apply_filters` chain and for its
uses in `filter_jobs` and `filter_builds`. -/
theorem filter_pipeline_conjunctive :
    (∀ (α : Type) (records : List α) (checks : List (α → Bool)) (x : α),
        x ∈ apply_filters records checks ↔
          x ∈ records ∧ ∀ c ∈ checks, c x = true) ∧
    (∀ (α : Type) (records : List α),
        apply_filters records ([] : List (α → Bool)) = records) ∧
    (∀ (hits : List Hit) (kw : Kwargs) (x : Hit),
        x ∈ filter_jobs hits kw ↔
          x ∈ hits ∧ ∀ c ∈ job_checks kw, c x = true) ∧
    (∀ (builds : List Hit) (checks : List (Hit → Bool)) (x : Hit),
        x ∈ filter_builds builds checks ↔
          (∃ h ∈ builds, x = stringifyBuildNum h) ∧
            ∀ c ∈ checks, c x = true) := by
  refine ⟨fun α records checks x => mem_apply_filters records checks x,
    fun α records => rfl, ?_, ?_⟩
  · intro hits kw x
    exact mem_apply_filters hits (job_checks kw) x
  · intro builds checks x
    rw [filter_builds, mem_apply_filters]
    simp only [List.mem_map]
    constructor
    · rintro ⟨⟨h, hh, rfl⟩, hall⟩
      exact ⟨⟨h, hh, rfl⟩, hall⟩
    · rintro ⟨⟨h, hh, rfl⟩, hall⟩
      exact ⟨⟨h, hh, rfl⟩, hall⟩

/-- Witness for C7: with the empty chain the sample `FAIL` hit is
retained, and with a status stage it satisfies every stage of the
chain. -/
theorem filter_pipeline_conjunctive_witness :
    hitFail ∈ apply_filters [hitSuccess, hitFail]
      ([] : List (Hit → Bool)) ∧
    hitFail ∈ apply_filters [hitSuccess, hitFail]
      [fun h => h.build_result = "FAIL"] := by
  constructor
  · exact (filter_pipeline_conjunctive.1 Hit [hitSuccess, hitFail] [] hitFail).mpr
      ⟨by decide, by simp⟩
  · refine (filter_pipeline_conjunctive.1 Hit [hitSuccess, hitFail]
      [fun h => h.build_result = "FAIL"] hitFail).mpr ⟨by decide, ?_⟩
    intro c hc
    rcases List.mem_singleton.mp hc with rfl
    decide

/-! ## `get_builds` grouping fold: status soundness and build presence -/

theorem mem_addKV {α : Type} (m : α → α → α) (l : List (String × α))
    (k : String) (v : α) (x : String × α) (h : x ∈ addKV m l k v) :
    x ∈ l ∨ x = (k, v) ∨ ∃ o, alookup k l = some o ∧ x = (k, m o v) := by
  unfold addKV at h
  cases hlk : alookup k l with
  | some o =>
      rw [hlk] at h
      rcases mem_aupdate k _ l x h with hm | ⟨w, hw, rfl⟩
      · exact Or.inl hm
      · rw [hlk] at hw
        exact Or.inr (Or.inr ⟨w, hw, rfl⟩)
  | none =>
      rw [hlk] at h
      rcases List.mem_append.mp h with hm | hm
      · exact Or.inl hm
      · exact Or.inr (Or.inl (List.mem_singleton.mp hm))

/-- If every job of `base` has only builds whose status satisfies `P` and
the hit's result satisfies `P`, the same holds after the
create-and-`add_build` step of the grouping loop applied over `base`. -/
theorem aupdate_addbuild_sound (P : Option String → Prop)
    (base : List (String × JobR)) (h : Hit)
    (hbase : ∀ nj ∈ base, ∀ kb ∈ nj.2.builds, P kb.2.status)
    (hh : P (some h.build_result)) (nj : String × JobR)
    (hnj : nj ∈ aupdate h.job_name
      (fun j => add_build j (pyStr h.build_num) (buildOfHit h)) base) :
    ∀ kb ∈ nj.2.builds, P kb.2.status := by
  intro kb hkb
  rcases mem_aupdate _ _ base nj hnj with hmem | ⟨v, hv, rfl⟩
  · exact hbase nj hmem kb hkb
  · have hkb' : kb ∈ addBuildToList v.builds (pyStr h.build_num)
        (buildOfHit h) := hkb
    rcases mem_addKV mergeBuild v.builds _ _ kb hkb' with hm | hm | ⟨o, ho, rfl⟩
    · exact hbase (h.job_name, v) (alookup_mem _ base v hv) kb hm
    · rw [hm]
      exact hh
    · show P (mergeBuild o (buildOfHit h)).status
      simp only [mergeBuild, buildOfHit, mergeOpt]
      exact hh

theorem addHitBuild_status_sound (P : Option String → Prop)
    (acc : List (String × JobR)) (h : Hit)
    (hacc : ∀ nj ∈ acc, ∀ kb ∈ nj.2.builds, P kb.2.status)
    (hh : P (some h.build_result)) :
    ∀ nj ∈ addHitBuild acc h, ∀ kb ∈ nj.2.builds, P kb.2.status := by
  intro nj hnj
  cases hlk : alookup h.job_name acc with
  | some v0 =>
      have hnj' : nj ∈ aupdate h.job_name
          (fun j => add_build j (pyStr h.build_num) (buildOfHit h)) acc := by
        simpa only [addHitBuild, hlk] using hnj
      exact aupdate_addbuild_sound P acc h hacc hh nj hnj'
  | none =>
      have hnj' : nj ∈ aupdate h.job_name
          (fun j => add_build j (pyStr h.build_num) (buildOfHit h))
          (aappend acc h.job_name { url := some h.job_url, builds := [] }) := by
        simpa only [addHitBuild, hlk] using hnj
      refine aupdate_addbuild_sound P _ h ?_ hh nj hnj'
      intro mj hmj kb hkb
      rcases List.mem_append.mp hmj with hm | hm
      · exact hacc mj hm kb hkb
      · rcases List.mem_singleton.mp hm with rfl
        simp at hkb

theorem foldl_addHitBuild_status_sound (P : Option String → Prop)
    (hits2 : List Hit) (acc : List (String × JobR))
    (hacc : ∀ nj ∈ acc, ∀ kb ∈ nj.2.builds, P kb.2.status)
    (hhits : ∀ h ∈ hits2, P (some h.build_result)) :
    ∀ nj ∈ hits2.foldl addHitBuild acc, ∀ kb ∈ nj.2.builds,
      P kb.2.status := by
  induction hits2 generalizing acc with
  | nil => exact hacc
  | cons h rest ih =>
      rw [List.foldl_cons]
      exact ih (addHitBuild acc h)
        (addHitBuild_status_sound P acc h hacc
          (hhits h (List.mem_cons_self _ _)))
        (fun h' hh' => hhits h' (List.mem_cons_of_mem _ hh'))

/-- The grouping step preserves any already-registered (job, build)
key pair. -/
theorem addHitBuild_preserves (acc : List (String × JobR)) (h : Hit)
    (n : String) (j : JobR) (k : String) (hj : alookup n acc = some j)
    (hk : (alookup k j.builds).isSome) :
    ∃ j', alookup n (addHitBuild acc h) = some j' ∧
      (alookup k j'.builds).isSome := by
  cases hlk : alookup h.job_name acc with
  | some v0 =>
      by_cases hn : n = h.job_name
      · subst hn
        refine ⟨add_build j (pyStr h.build_num) (buildOfHit h), ?_, ?_⟩
        · simp only [addHitBuild, hlk]
          rw [alookup_aupdate_self, hj]
          rfl
        · exact alookup_addKV_isSome mergeBuild j.builds _ k (buildOfHit h) hk
      · refine ⟨j, ?_, hk⟩
        simp only [addHitBuild, hlk]
        rw [alookup_aupdate_other _ n _ acc hn]
        exact hj
  | none =>
      have hn : n ≠ h.job_name := by
        intro heq
        rw [heq, hlk] at hj
        cases hj
      refine ⟨j, ?_, hk⟩
      simp only [addHitBuild, hlk]
      rw [alookup_aupdate_other _ n _ _ hn,
        alookup_aappend_other _ n acc _ hn]
      exact hj

/-- After the grouping step for a hit, the hit's job is present and holds
a build under the hit's (stringified) build number. -/
theorem addHitBuild_registers (acc : List (String × JobR)) (h : Hit) :
    ∃ j, alookup h.job_name (addHitBuild acc h) = some j ∧
      (alookup (pyStr h.build_num) j.builds).isSome := by
  cases hlk : alookup h.job_name acc with
  | some v0 =>
      refine ⟨add_build v0 (pyStr h.build_num) (buildOfHit h), ?_, ?_⟩
      · simp only [addHitBuild, hlk]
        rw [alookup_aupdate_self, hlk]
        rfl
      · show (alookup _ (addKV mergeBuild v0.builds _ _)).isSome
        rw [alookup_addKV_self]
        cases alookup (pyStr h.build_num) v0.builds <;> rfl
  | none =>
      refine ⟨add_build { url := some h.job_url, builds := [] }
        (pyStr h.build_num) (buildOfHit h), ?_, ?_⟩
      · simp only [addHitBuild, hlk]
        rw [alookup_aupdate_self, alookup_aappend_self, hlk]
        rfl
      · show (alookup _ (addKV mergeBuild ([] : List (String × BuildR)) _ _)).isSome
        rw [alookup_addKV_self]
        rfl

theorem foldl_addHitBuild_preserves (hits2 : List Hit)
    (acc : List (String × JobR)) (n : String) (j : JobR) (k : String)
    (hj : alookup n acc = some j) (hk : (alookup k j.builds).isSome) :
    ∃ j', alookup n (hits2.foldl addHitBuild acc) = some j' ∧
      (alookup k j'.builds).isSome := by
  induction hits2 generalizing acc j with
  | nil => exact ⟨j, hj, hk⟩
  | cons h rest ih =>
      obtain ⟨j', hj', hk'⟩ := addHitBuild_preserves acc h n j k hj hk
      rw [List.foldl_cons]
      exact ih (addHitBuild acc h) j' hj' hk'

theorem foldl_addHitBuild_registers (hits2 : List Hit)
    (acc : List (String × JobR)) (h : Hit) (hh : h ∈ hits2) :
    ∃ j, alookup h.job_name (hits2.foldl addHitBuild acc) = some j ∧
      (alookup (pyStr h.build_num) j.builds).isSome := by
  induction hits2 generalizing acc with
  | nil => simp at hh
  | cons h0 rest ih =>
      rw [List.foldl_cons]
      rcases List.mem_cons.mp hh with rfl | hh
      · obtain ⟨j, hj, hk⟩ := addHitBuild_registers acc h
        exact foldl_addHitBuild_preserves rest _ h.job_name j _ hj hk
      · exact ih (addHitBuild acc h0) hh

/-- A kwargs set whose only active criterion is a build-status filter. -/
def statusOnlyKw (sts : List String) : Kwargs :=
  { jobs := none, jobs_scope := none, specName := none, builds := none,
    build_status := some sts, last_build := false, tests := none,
    test_result := none, test_duration := none }

theorem statusOnlyKw_filters (sts : List String) (hsts : ¬ sts.isEmpty = true) :
    get_build_filters (statusOnlyKw sts) =
      [satisfy_case_insensitive_match sts (fun h => h.build_result)] := by
  simp [get_build_filters, statusOnlyKw, hsts]

theorem statusOnlyKw_get_builds (hits : List Hit) (sts : List String)
    (hsts : ¬ sts.isEmpty = true) :
    get_builds hits (statusOnlyKw sts) =
      .ok (((filter_builds hits
          [satisfy_case_insensitive_match sts (fun h => h.build_result)]).foldl
            addHitBuild []).filter (fun p => has_builds_job p.2)) := by
  simp only [get_builds, statusOnlyKw_filters sts hsts]
  rfl

/-- The job holding only the `FAIL` build `"2"`, as returned by the
filtered scenarios. -/
def expectedFailJob : JobR :=
  { url := some "http://domain.tld/test/"
    builds := [("2", { status := some "FAIL", duration := none, tests := [] })] }

/-- **C6.** With a build-status filter applied, `get_builds` retains
exactly the builds whose status matches the requested value
(case-insensitively) and drops every job left with zero builds: every
build of every returned job carries a matching status, every returned job
has at least one build, and every hit with a matching status contributes
its build to its job in the result; for hits
`{"1": SUCCESS, "2": FAIL}` under filter `FAIL`, only build `"2"` is
present. -/
theorem get_builds_status_filter :
    (∀ (hits : List Hit) (sts : List String), ¬ sts.isEmpty = true →
        ∃ res, get_builds hits (statusOnlyKw sts) = .ok res ∧
          (∀ nj ∈ res, ∀ kb ∈ nj.2.builds, ∃ s, kb.2.status = some s ∧
            (sts.map pyLower).contains (pyLower s) = true) ∧
          (∀ nj ∈ res, nj.2.builds ≠ []) ∧
          (∀ h ∈ hits,
            (sts.map pyLower).contains (pyLower h.build_result) = true →
            ∃ j, (h.job_name, j) ∈ res ∧
              (alookup (pyStr h.build_num) j.builds).isSome)) ∧
    get_builds [hitSuccess, hitFail] (statusOnlyKw ["FAIL"]) =
      .ok [("test", expectedFailJob)] := by
  constructor
  · intro hits sts hsts
    set chk := satisfy_case_insensitive_match sts (fun h => h.build_result)
      with hchk
    set hits2 := filter_builds hits [chk] with hhits2
    set jobs_found := hits2.foldl addHitBuild [] with hjf
    refine ⟨jobs_found.filter (fun p => has_builds_job p.2),
      statusOnlyKw_get_builds hits sts hsts, ?_, ?_, ?_⟩
    · intro nj hnj kb hkb
      have hnj' : nj ∈ jobs_found := (List.mem_filter.mp hnj).1
      refine foldl_addHitBuild_status_sound
        (fun st => ∃ s, st = some s ∧
          (sts.map pyLower).contains (pyLower s) = true)
        hits2 [] (by simp) ?_ nj hnj' kb hkb
      intro h' hh'
      rw [hhits2, filter_builds, mem_apply_filters] at hh'
      have hc := hh'.2 chk (List.mem_singleton_self _)
      exact ⟨h'.build_result, rfl, hc⟩
    · intro nj hnj
      have hhas := (List.mem_filter.mp hnj).2
      unfold has_builds_job at hhas
      cases hb : nj.2.builds with
      | nil => rw [hb] at hhas; simp at hhas
      | cons x xs => exact List.cons_ne_nil x xs
    · intro h hh hmatch
      have hmem : stringifyBuildNum h ∈ hits2 := by
        rw [hhits2, filter_builds, mem_apply_filters]
        refine ⟨List.mem_map_of_mem stringifyBuildNum hh, ?_⟩
        intro c hc
        rcases List.mem_singleton.mp hc with rfl
        exact hmatch
      obtain ⟨j, hj, hk⟩ :=
        foldl_addHitBuild_registers hits2 [] (stringifyBuildNum h) hmem
      have hne : j.builds ≠ [] := by
        intro h0
        rw [h0] at hk
        cases hk
      have hjmem : (h.job_name, j) ∈ jobs_found :=
        alookup_mem h.job_name jobs_found j hj
      refine ⟨j, List.mem_filter.mpr ⟨hjmem, ?_⟩, hk⟩
      unfold has_builds_job
      cases hb : j.builds with
      | nil => exact absurd hb hne
      | cons x xs => rfl
  · rfl

/-- Witness for C6: the general statement applied to the concrete
`SUCCESS`/`FAIL` hits with filter `FAIL`: the matching hit's build is
present in the result. -/
theorem get_builds_status_filter_witness :
    ∃ res, get_builds [hitSuccess, hitFail] (statusOnlyKw ["FAIL"]) =
        .ok res ∧
      ∃ j, ("test", j) ∈ res ∧ (alookup "2" j.builds).isSome := by
  obtain ⟨res, hres, _, _, hcomp⟩ :=
    get_builds_status_filter.1 [hitSuccess, hitFail] ["FAIL"] (by decide)
  obtain ⟨j, hj, hk⟩ := hcomp hitFail (by decide) (by decide)
  exact ⟨res, hres, j, hj, hk⟩

/-- **C10.** Build-status filtering in `get_builds` matches the requested
status ignoring letter case: a (stringified) record passes the assembled
build filter iff its `build_result` equals one of the requested statuses
under case-insensitive comparison; in particular requesting `fAiL`
retains the build whose result is `FAIL`. -/
theorem get_builds_status_case_insensitive :
    (∀ (hits : List Hit) (sts : List String), ¬ sts.isEmpty = true →
        ∀ x : Hit,
          x ∈ filter_builds (filter_jobs hits (statusOnlyKw sts))
              (get_build_filters (statusOnlyKw sts)) ↔
            ∃ h ∈ hits, x = stringifyBuildNum h ∧
              (sts.map pyLower).contains (pyLower h.build_result) = true) ∧
    get_builds [hitSuccess, hitFail] (statusOnlyKw ["fAiL"]) =
      .ok [("test", expectedFailJob)] := by
  constructor
  · intro hits sts hsts x
    have hfj : filter_jobs hits (statusOnlyKw sts) = hits := rfl
    rw [hfj, statusOnlyKw_filters sts hsts, filter_builds,
      mem_apply_filters]
    simp only [List.mem_map, List.mem_singleton]
    constructor
    · rintro ⟨⟨h, hh, rfl⟩, hall⟩
      refine ⟨h, hh, rfl, ?_⟩
      exact hall _ rfl
    · rintro ⟨h, hh, rfl, hmatch⟩
      refine ⟨⟨h, hh, rfl⟩, ?_⟩
      intro c hc
      subst hc
      exact hmatch
  · rfl

/-- Witness for C10: in the concrete run with requested status `fAiL`,
the stringified `FAIL` hit passes the build filter. -/
theorem get_builds_status_case_insensitive_witness :
    stringifyBuildNum hitFail ∈
      filter_builds (filter_jobs [hitSuccess, hitFail] (statusOnlyKw ["fAiL"]))
        (get_build_filters (statusOnlyKw ["fAiL"])) := by
  exact (get_builds_status_case_insensitive.1 [hitSuccess, hitFail] ["fAiL"]
    (by decide) (stringifyBuildNum hitFail)).mpr
    ⟨hitFail, by decide, rfl, by decide⟩

/-! ## `get_tests` and the `MissingArgument` companion-criterion check -/

theorem get_last_build_error_valueError :
    ∀ (jobs : List (String × JobR)) (e : CibylErr),
      get_last_build jobs = .error e → ∃ msg, e = .valueError msg
  | [], e, h => by cases h
  | (name, j) :: rest, e, h => by
      cases hstep : lastBuildOfJob j with
      | error e' =>
          obtain ⟨m, rfl⟩ := lastBuildOfJob_error j e' hstep
          simp only [get_last_build, hstep] at h
          exact ⟨m, ((Except.error.injEq _ _).mp h).symm⟩
      | ok o =>
          cases o with
          | none =>
              simp only [get_last_build, hstep] at h
              exact get_last_build_error_valueError rest e h
          | some j' =>
              simp only [get_last_build, hstep, Except.map] at h
              cases hrest : get_last_build rest with
              | error e2 =>
                  rw [hrest] at h
                  simp only [Except.map] at h
                  obtain ⟨m, rfl⟩ :=
                    get_last_build_error_valueError rest e2 hrest
                  exact ⟨m, ((Except.error.injEq _ _).mp h).symm⟩
              | ok r =>
                  rw [hrest] at h
                  simp only [Except.map] at h
                  cases h

/-- **C8.** `get_tests` raises `MissingArgument` exactly when invoked
without at least one of the companion criteria `builds` / `last_build`;
with either supplied, no `MissingArgument` can be raised (as a pure
function of its inputs, the failure is confined to the invocation — no
other state exists to be affected). -/
theorem get_tests_missing_argument :
    (∀ (hits : List Hit) (kw : Kwargs),
        kw.builds = none → kw.last_build = false →
        get_tests hits kw =
          .error (.missingArgument "tests require --builds or --last-build")) ∧
    (∀ (hits : List Hit) (kw : Kwargs),
        kw.builds.isSome = true ∨ kw.last_build = true →
        ∀ m, get_tests hits kw ≠ .error (.missingArgument m)) := by
  constructor
  · intro hits kw h1 h2
    have hchk : check_builds_for_test kw =
        .error (.missingArgument "tests require --builds or --last-build") := by
      unfold check_builds_for_test
      rw [h1, h2]
      rfl
    simp only [get_tests, hchk]
  · intro hits kw h m
    have hcond : (kw.builds.isSome || kw.last_build) = true := by
      rcases h with h | h
      · rw [h]
        rfl
      · rw [h]
        simp
    have hchk : check_builds_for_test kw = .ok () := by
      unfold check_builds_for_test
      rw [if_pos hcond]
    intro heq
    simp only [get_tests, hchk] at heq
    cases hlb : kw.last_build with
    | false =>
        rw [hlb] at heq
        simp only [if_neg Bool.false_ne_true] at heq
        cases heq
    | true =>
        rw [hlb] at heq
        simp only [if_pos rfl] at heq
        obtain ⟨msg, hmsg⟩ := get_last_build_error_valueError _ _ heq
        cases hmsg

/-- A kwargs set with neither `builds` nor `last_build`. -/
def testsKwNone : Kwargs :=
  { jobs := none, jobs_scope := none, specName := none, builds := none,
    build_status := none, last_build := false, tests := none,
    test_result := none, test_duration := none }

/-- A kwargs set carrying a `builds` companion criterion. -/
def testsKwBuilds : Kwargs :=
  { jobs := none, jobs_scope := none, specName := none,
    builds := some ["1"], build_status := none, last_build := false,
    tests := none, test_result := none, test_duration := none }

/-- Witness for C8: without `builds`/`last_build` the concrete invocation
raises `MissingArgument`; with `builds` supplied it does not. -/
theorem get_tests_missing_argument_witness :
    get_tests [] testsKwNone =
      .error (.missingArgument "tests require --builds or --last-build") ∧
    get_tests [] testsKwBuilds ≠
      .error (.missingArgument "tests require --builds or --last-build") := by
  constructor
  · exact get_tests_missing_argument.1 [] testsKwNone rfl rfl
  · exact get_tests_missing_argument.2 [] testsKwBuilds (Or.inl rfl) _
